import Mathlib

/-!
Doubly-linked list ADT (`dll_adt.c`).

A shallow embedding of the list operations of `dll_adt.c`.

* A pointer to a node is an `Option Nat`: `none` is `NULL`, `some a` is the
  address `a`.
* The node heap is a list of slots; slot `a` is `some node` while the node
  at address `a` is allocated and `none` once it has been freed.  `malloc`
  takes the first address past the end of the heap, so it always returns
  storage that no live pointer refers to.
* Every function returns `Except Fault _`: a failed `assert` is
  `Fault.assert_failed`, dereferencing `NULL` or freed storage is
  `Fault.invalid_access`.
* An `int` is a 32-bit two's complement value held in an `Int`: `++` and `--`
  on the `length` field wrap around at `INT_MAX` and `INT_MIN`
  (`int_succ`, `int_pred`).
-/

namespace DLL

/-- The ways a call can stop without returning. -/
inductive Fault where
  | assert_failed
  | invalid_access
  | no_termination
  deriving DecidableEq, Repr

/-- The node of the source, `struct dllnode`. -/
structure dllnode where
  data : String
  next : Option Nat
  prev : Option Nat
  deriving DecidableEq, Repr

/-- The list header of the source, `struct dllist`. -/
structure dllist where
  first : Option Nat
  last : Option Nat
  length : Int
  deriving DecidableEq, Repr

/-- Node storage: slot `a` holds the node allocated at address `a`. -/
abbrev Heap := List (Option dllnode)

/-- The memory a list lives in together with its header. -/
structure State where
  heap : Heap
  list : dllist
  deriving DecidableEq, Repr

/-- The node stored at address `a`, if that address is allocated. -/
def load (h : Heap) (a : Nat) : Option dllnode :=
  match h[a]? with
  | some (some n) => some n
  | _ => none

/-- Reading through a pointer: `p->field` faults unless `p` is live. -/
def deref (h : Heap) (p : Option Nat) : Except Fault dllnode :=
  match p with
  | none => .error .invalid_access
  | some a =>
    match load h a with
    | some n => .ok n
    | none => .error .invalid_access

/-- The assignment `p->next = q`. -/
def set_next (h : Heap) (p q : Option Nat) : Except Fault Heap :=
  match p with
  | none => .error .invalid_access
  | some a =>
    match load h a with
    | some n => .ok (h.set a (some { n with next := q }))
    | none => .error .invalid_access

/-- The assignment `p->prev = q`. -/
def set_prev (h : Heap) (p q : Option Nat) : Except Fault Heap :=
  match p with
  | none => .error .invalid_access
  | some a =>
    match load h a with
    | some n => .ok (h.set a (some { n with prev := q }))
    | none => .error .invalid_access

/-- The call `free(p)` on a node pointer. -/
def free (h : Heap) (p : Option Nat) : Except Fault Heap :=
  match p with
  | none => .ok h
  | some a =>
    match load h a with
    | some _ => .ok (h.set a none)
    | none => .error .invalid_access

/-- The source's `node_create`: a fresh node holding a copy of `str`, both
links `NULL`.  Returns the new heap and the node's address. -/
def node_create (h : Heap) (str : String) : Heap × Nat :=
  (h ++ [some { data := str, next := none, prev := none }], h.length)

/-- An `assert` of the source. -/
def assert (c : Bool) : Except Fault Unit :=
  if c then .ok () else .error .assert_failed

/-- The largest value of a 32-bit `int`. -/
def INT_MAX : Int := 2147483647

/-- The smallest value of a 32-bit `int`. -/
def INT_MIN : Int := -2147483648

/-- Reduction of an integer to the 32-bit two's complement range:
`(x + 2^31) % 2^32 - 2^31`. -/
def wrap32 (x : Int) : Int := (x + 2147483648) % 4294967296 - 2147483648

/-- The value of `x + 1` (and of `++x`) on a 32-bit `int`: it wraps from
`INT_MAX` to `INT_MIN`.  On every value an `int` can hold this is
`wrap32 (x + 1)`. -/
def int_succ (x : Int) : Int := if x = INT_MAX then INT_MIN else x + 1

/-- The value of `x - 1` (and of `--x`) on a 32-bit `int`: it wraps from
`INT_MIN` to `INT_MAX`.  On every value an `int` can hold this is
`wrap32 (x - 1)`. -/
def int_pred (x : Int) : Int := if x = INT_MIN then INT_MAX else x - 1

/-- The source's `list_create`. -/
def list_create : State :=
  { heap := [], list := { first := none, last := none, length := 1 } }

/-- The source's `list_is_empty`: the sum of the two null tests, converted
to `bool`. -/
def list_is_empty (s : State) : Bool :=
  let num : Nat := (if s.list.first = none then 1 else 0) + (if s.list.last = none then 1 else 0)
  num != 0

/-- The source's `list_append`. -/
def list_append (s : State) (str : String) : Except Fault State :=
  let cur := s.list.first
  if cur = none then
    let (h1, a) := node_create s.heap str
    .ok { heap := h1, list := { s.list with first := some a, last := some a } }
  else do
    let (h1, append_node) := node_create s.heap str
    let h2 ← set_prev h1 (some append_node) s.list.last
    let h3 ← set_next h2 s.list.last (some append_node)
    let h4 ← set_next h3 (some append_node) none
    pure { heap := h4,
           list := { s.list with last := some append_node, length := int_succ s.list.length } }

/-- The source's `list_prepend`. -/
def list_prepend (s : State) (str : String) : Except Fault State :=
  let cur := s.list.first
  if cur = none then
    let (h1, a) := node_create s.heap str
    .ok { heap := h1, list := { s.list with first := some a, last := some a } }
  else do
    let (h1, prepend_node) := node_create s.heap str
    let h2 ← set_prev h1 s.list.first (some prepend_node)
    let h3 ← set_next h2 (some prepend_node) s.list.first
    let h4 ← set_prev h3 (some prepend_node) none
    pure { heap := h4,
           list := { s.list with first := some prepend_node, length := int_succ s.list.length } }

/-- The loop `while (i < idx) { p = p->next; ++i; }` of `list_insert_at`,
given the number of iterations left. -/
def insert_walk (h : Heap) (p : Option Nat) : Nat → Except Fault (Option Nat)
  | 0 => .ok p
  | k + 1 => do
    let n ← deref h p
    insert_walk h n.next k

/-- The source's `list_insert_at`. -/
def list_insert_at (s : State) (str : String) (idx : Int) : Except Fault State := do
  assert (decide (idx ≥ 0) && decide (idx ≤ s.list.length))
  if idx = s.list.length then
    list_append s str
  else if idx = 0 then
    list_prepend s str
  else do
    -- `i` starts at 1, so the loop body runs `idx - 1` times
    let p ← insert_walk s.heap s.list.first (idx - 1).toNat
    let (h1, insert_node) := node_create s.heap str
    let pn ← deref h1 p
    let h2 ← set_next h1 (some insert_node) pn.next
    let pn ← deref h2 p
    let h3 ← set_prev h2 pn.next (some insert_node)
    let h4 ← set_prev h3 (some insert_node) p
    let h5 ← set_next h4 p (some insert_node)
    pure { heap := h5, list := { s.list with length := int_succ s.list.length } }

/-- The source's `list_remove_front`. -/
def list_remove_front (s : State) : Except Fault (String × State) := do
  assert (list_is_empty s == false)
  let p := s.list.first
  let pn ← deref s.heap p
  let retval := pn.data
  let l1 := { s.list with first := pn.next }
  let h1 ← set_prev s.heap pn.next none
  let h2 ← free h1 p
  pure (retval, { heap := h2, list := { l1 with length := int_pred l1.length } })

/-- The source's `list_remove_back`. -/
def list_remove_back (s : State) : Except Fault (String × State) := do
  assert (list_is_empty s == false)
  let p := s.list.last
  let pn ← deref s.heap p
  let retval := pn.data
  let l1 := { s.list with last := pn.prev }
  let h1 ← set_next s.heap pn.prev none
  let h2 ← free h1 p
  pure (retval, { heap := h2, list := { l1 with length := int_pred l1.length } })

/-- The loop `while (p && i != idx) { p = p->next; ++i; }` of
`list_remove_at`, given the distance `idx - i` still to go. -/
def remove_walk (h : Heap) (p : Option Nat) : Nat → Except Fault (Option Nat)
  | 0 => .ok p
  | k + 1 =>
    match p with
    | none => .ok none
    | some a => do
      let n ← deref h (some a)
      remove_walk h n.next k

/-- The source's `list_remove_at`. -/
def list_remove_at (s : State) (idx : Int) : Except Fault (String × State) := do
  assert (decide (idx ≥ 0) && decide (idx < s.list.length))
  assert (list_is_empty s == false)
  if idx = int_pred s.list.length then
    list_remove_back s
  else if idx = 0 then
    list_remove_front s
  else do
    let p ← remove_walk s.heap s.list.first idx.toNat
    let pn ← deref s.heap p
    let retval := pn.data
    let h1 ← set_prev s.heap pn.next pn.prev
    let pn ← deref h1 p
    let h2 ← set_next h1 pn.prev pn.next
    let h3 ← free h2 p
    pure (retval, { heap := h3, list := { s.list with length := int_pred s.list.length } })

/-- The loop `while (p) { ...p->data...; p = p->next; }` of `list_print` and
`list_destroy`, collecting the values it reads.  The fuel bounds the number
of iterations. -/
def collect_next (h : Heap) : Nat → Option Nat → Except Fault (List String)
  | _, none => .ok []
  | 0, some _ => .error .no_termination
  | fuel + 1, some a => do
    let n ← deref h (some a)
    let rest ← collect_next h fuel n.next
    pure (n.data :: rest)

/-- The loop `while (p) { ...p->data...; p = p->prev; }` of `list_print`,
collecting the values it reads. -/
def collect_prev (h : Heap) : Nat → Option Nat → Except Fault (List String)
  | _, none => .ok []
  | 0, some _ => .error .no_termination
  | fuel + 1, some a => do
    let n ← deref h (some a)
    let rest ← collect_prev h fuel n.prev
    pure (n.data :: rest)

/-- The values read by following `next` from `first`.  A walk over distinct
allocated nodes takes at most one step per heap slot, so the fuel given here
runs out only when the walk never ends. -/
def front_to_back (s : State) : Except Fault (List String) :=
  collect_next s.heap (s.heap.length + 1) s.list.first

/-- The values read by following `prev` from `last`. -/
def back_to_front (s : State) : Except Fault (List String) :=
  collect_prev s.heap (s.heap.length + 1) s.list.last

/-- Address of the first cell of a chain, or `dflt` for the empty chain. -/
def hdAddr (dflt : Option Nat) : List (Nat × String) → Option Nat
  | [] => dflt
  | c :: _ => some c.1

/-- Address of the last cell of a chain, or `dflt` for the empty chain. -/
def lastAddr (dflt : Option Nat) : List (Nat × String) → Option Nat
  | [] => dflt
  | c :: cs => lastAddr (some c.1) cs

/-- The cells `cs` (address and value, front to back) form a doubly-linked
segment of the heap: each cell's `next` is the following cell (`nxt` after
the last one) and each cell's `prev` is the preceding cell (`prv` before the
first one). -/
def seg (h : Heap) (prv nxt : Option Nat) : List (Nat × String) → Prop
  | [] => True
  | c :: cs =>
    load h c.1 = some { data := c.2, next := hdAddr nxt cs, prev := prv } ∧
    seg h (some c.1) nxt cs

/-- Well-formedness: the header `s.list` and the heap represent the chain
`cs`.  The chain is linked in both directions, closed by `NULL` at both
ends, visits no node twice, and `first`/`last` are its two ends. -/
def Rep (s : State) (cs : List (Nat × String)) : Prop :=
  seg s.heap none none cs ∧ (cs.map Prod.fst).Nodup ∧
  s.list.first = hdAddr none cs ∧ s.list.last = lastAddr none cs

/-- States a client can build: `list_create` followed by calls of the
mutating public operations that return. -/
inductive Reachable : State → Prop where
  | create : Reachable list_create
  | append (s : State) (v : String) (t : State) :
      Reachable s → list_append s v = .ok t → Reachable t
  | prepend (s : State) (v : String) (t : State) :
      Reachable s → list_prepend s v = .ok t → Reachable t
  | insert_at (s : State) (v : String) (idx : Int) (t : State) :
      Reachable s → list_insert_at s v idx = .ok t → Reachable t
  | remove_at (s : State) (idx : Int) (r : String) (t : State) :
      Reachable s → list_remove_at s idx = .ok (r, t) → Reachable t
  | remove_front (s : State) (r : String) (t : State) :
      Reachable s → list_remove_front s = .ok (r, t) → Reachable t
  | remove_back (s : State) (r : String) (t : State) :
      Reachable s → list_remove_back s = .ok (r, t) → Reachable t

/-- The state invariant of the implementation: the list is well formed and
the `length` field is the node count (1 while the list has no node) reduced
to the range of a 32-bit `int`. -/
def Inv (s : State) : Prop :=
  ∃ cs : List (Nat × String), Rep s cs ∧ s.list.length = wrap32 (max 1 (cs.length : Int))

/-- A call of one of the three inserting operations. -/
inductive Op where
  | append (v : String)
  | prepend (v : String)
  | insert_at (v : String) (idx : Int)
  deriving DecidableEq, Repr

/-- Performing one inserting call. -/
def Op.apply (s : State) : Op → Except Fault State
  | .append v => list_append s v
  | .prepend v => list_prepend s v
  | .insert_at v idx => list_insert_at s v idx

/-- The index condition `0 <= idx <= length` on an inserting call, read on
the `length` field as `list_insert_at` does; it holds in particular for every
index up to the number of elements. -/
def Op.index_ok (s : State) : Op → Bool
  | .append _ => true
  | .prepend _ => true
  | .insert_at _ idx => decide (0 ≤ idx) && decide (idx ≤ s.list.length)

/-- Performing a sequence of inserting calls, left to right. -/
def run (s : State) : List Op → Except Fault State
  | [] => .ok s
  | op :: ops =>
    match op.apply s with
    | .ok t => run t ops
    | .error e => .error e

/-- Every insert index in the sequence meets the index condition in the state
in which its call is made. -/
def indices_ok (s : State) : List Op → Bool
  | [] => true
  | op :: ops =>
    op.index_ok s &&
      match op.apply s with
      | .ok t => indices_ok t ops
      | .error _ => true

/-- Appending the values `xs` one after the other with `list_append`. -/
def append_all (s : State) : List String → Except Fault State
  | [] => .ok s
  | x :: xs =>
    match list_append s x with
    | .ok t => append_all t xs
    | .error e => .error e

/-- Calling `list_remove_front` `n` times, collecting the returned values. -/
def remove_front_n (s : State) : Nat → Except Fault (List String × State)
  | 0 => .ok ([], s)
  | n + 1 =>
    match list_remove_front s with
    | .ok (r, t) =>
      match remove_front_n t n with
      | .ok (rs, u) => .ok (r :: rs, u)
      | .error e => .error e
    | .error e => .error e

/-- Calling `list_remove_back` `n` times, collecting the returned values. -/
def remove_back_n (s : State) : Nat → Except Fault (List String × State)
  | 0 => .ok ([], s)
  | n + 1 =>
    match list_remove_back s with
    | .ok (r, t) =>
      match remove_back_n t n with
      | .ok (rs, u) => .ok (r :: rs, u)
      | .error e => .error e
    | .error e => .error e

/-- The source's `list_peek_front`.  The call has no store; the state is
returned as it was received. -/
def list_peek_front (s : State) : Except Fault (String × State) := do
  assert (list_is_empty s == false)
  let n ← deref s.heap s.list.first
  let first_item := n.data
  pure (first_item, s)

/-- The source's `list_peek_back`.  The call has no store; the state is
returned as it was received. -/
def list_peek_back (s : State) : Except Fault (String × State) := do
  assert (list_is_empty s == false)
  let n ← deref s.heap s.list.last
  let last_item := n.data
  pure (last_item, s)

/-- A sequence of peeks, `true` for `list_peek_front` and `false` for
`list_peek_back`, each on the state the previous one left. -/
def peeks (s : State) : List Bool → Except Fault (List String × State)
  | [] => .ok ([], s)
  | b :: bs =>
    match (if b then list_peek_front s else list_peek_back s) with
    | .ok (v, t) =>
      match peeks t bs with
      | .ok (vs, u) => .ok (v :: vs, u)
      | .error e => .error e
    | .error e => .error e

/-- The source's constant `ITER_FRONT_TO_BACK`. -/
def ITER_FRONT_TO_BACK : Int := 0

/-- The source's constant `ITER_BACK_TO_FRONT`. -/
def ITER_BACK_TO_FRONT : Int := 1

/-- The loop `while (p) { printf(" %s ->", p->data); p = p->next; }` of
`list_print`; `out` is the text written so far. -/
def print_next (h : Heap) : Nat → Option Nat → String → Except Fault String
  | _, none, out => .ok out
  | 0, some _, _ => .error .no_termination
  | fuel + 1, some a, out => do
    let n ← deref h (some a)
    print_next h fuel n.next (out ++ (" " ++ n.data ++ " ->"))

/-- The loop `while (p) { printf(" %s ->", p->data); p = p->prev; }` of
`list_print`; `out` is the text written so far. -/
def print_prev (h : Heap) : Nat → Option Nat → String → Except Fault String
  | _, none, out => .ok out
  | 0, some _, _ => .error .no_termination
  | fuel + 1, some a, out => do
    let n ← deref h (some a)
    print_prev h fuel n.prev (out ++ (" " ++ n.data ++ " ->"))

/-- The source's `list_print`: the text written to standard output, and the
state, which no statement of the function stores to.  The loops get the same
fuel as `front_to_back`. -/
def list_print (s : State) (direction : Int) : Except Fault (String × State) :=
  if direction = ITER_FRONT_TO_BACK then do
    let out ← print_next s.heap (s.heap.length + 1) s.list.first "[FRONT]:"
    pure (out ++ " [BACK]\n", s)
  else do
    let out ← print_prev s.heap (s.heap.length + 1) s.list.last "[BACK]:"
    pure (out ++ " [FRONT]\n", s)

/-- The rendering of the elements named by the specification: each value
preceded by a blank and followed by ` ->`. -/
def arrows : List String → String
  | [] => ""
  | v :: vs => (" " ++ v ++ " ->") ++ arrows vs

/-- The iterator of the source, `struct iter`. -/
structure iter where
  cur : Option Nat
  dir : Int
  deriving DecidableEq, Repr

/-- The source's `iter_get`. -/
def iter_get (s : State) (dir : Int) : Except Fault iter := do
  assert (list_is_empty s == false)
  assert (decide (dir = ITER_FRONT_TO_BACK) || decide (dir = ITER_BACK_TO_FRONT))
  if dir = ITER_FRONT_TO_BACK then
    pure { cur := s.list.first, dir := ITER_FRONT_TO_BACK }
  else
    pure { cur := s.list.last, dir := ITER_BACK_TO_FRONT }

/-- The source's `iter_current`. -/
def iter_current (h : Heap) (e : iter) : Except Fault String := do
  let n ← deref h e.cur
  let retval := n.data
  pure retval

/-- The source's `iter_next`.  The result is the returned `bool` and the
iterator after the call: `none` once `free(e)` has released it. -/
def iter_next (h : Heap) (e : iter) : Except Fault (Bool × Option iter) := do
  assert (e.cur != none)
  if e.dir = ITER_FRONT_TO_BACK then do
    let n ← deref h e.cur
    if n.next = none then
      pure (false, none)
    else
      pure (true, some { e with cur := n.next })
  else do
    let n ← deref h e.cur
    if n.prev = none then
      pure (false, none)
    else
      pure (true, some { e with cur := n.prev })

/-- A full traversal with an iterator: read `iter_current`, call `iter_next`,
and go on while it returns `true`.  The result lists the values read, the
values returned by `iter_next`, and the iterator left at the end.  Going on
with a released iterator is an invalid access. -/
def iter_drain (h : Heap) : Nat → iter → Except Fault (List String × List Bool × Option iter)
  | 0, _ => .error .no_termination
  | fuel + 1, e => do
    let v ← iter_current h e
    let (b, e1) ← iter_next h e
    if b then
      match e1 with
      | some e2 => do
        let (vs, bs, f) ← iter_drain h fuel e2
        pure (v :: vs, b :: bs, f)
      | none => .error .invalid_access
    else
      pure ([v], [b], e1)

/-- Well-formedness as three conditions on the header and the links: there is
a chain of cells from `first` to `last` (both null when it is empty) whose
first cell has a null `prev`, whose last cell has a null `next`, and in which
each cell's `next` is the following cell and each cell's `prev` the
preceding one. -/
def WellFormed (s : State) : Prop :=
  ∃ cs : List (Nat × String), seg s.heap none none cs ∧
    s.list.first = hdAddr none cs ∧ s.list.last = lastAddr none cs

/-- A call of one of the six mutating operations. -/
inductive Call where
  | append (v : String)
  | prepend (v : String)
  | insert_at (v : String) (idx : Int)
  | remove_at (idx : Int)
  | remove_front
  | remove_back
  deriving DecidableEq, Repr

/-- The state a mutating call leaves when it returns (the value returned by a
removal is dropped). -/
def Call.apply (s : State) : Call → Except Fault State
  | .append v => list_append s v
  | .prepend v => list_prepend s v
  | .insert_at v idx => list_insert_at s v idx
  | .remove_at idx =>
    match list_remove_at s idx with
    | .ok (_, t) => .ok t
    | .error e => .error e
  | .remove_front =>
    match list_remove_front s with
    | .ok (_, t) => .ok t
    | .error e => .error e
  | .remove_back =>
    match list_remove_back s with
    | .ok (_, t) => .ok t
    | .error e => .error e

/-- A call followed statement by statement: from the state it starts in, the
outcome of the call together with the state it stops in.  When the call
aborts, that is the state at the abort, with every store made before it. -/
def Exec (α : Type) : Type := State → Except Fault α × State

/-- Sequencing of statements: a fault ends the call and keeps the state
reached so far. -/
instance : Monad Exec where
  pure a := fun s => (.ok a, s)
  bind m f := fun s =>
    match m s with
    | (.ok a, t) => f a t
    | (.error e, t) => (.error e, t)

/-- The current state. -/
def Exec.state : Exec State := fun s => (.ok s, s)

/-- An `assert` of the source: no store, aborts when the condition is false. -/
def Exec.check (c : Bool) : Exec Unit := fun s => (assert c, s)

/-- A read through a pointer: no store, faults when the read does. -/
def Exec.read {α : Type} (x : Except Fault α) : Exec α := fun s => (x, s)

/-- An assignment to a field of the list header. -/
def Exec.put_list (f : dllist → dllist) : Exec Unit :=
  fun s => (.ok (), { s with list := f s.list })

/-- A store to (or a `free` of) a node; a faulting store changes nothing. -/
def Exec.put_heap (f : Heap → Except Fault Heap) : Exec Unit :=
  fun s =>
    match f s.heap with
    | .ok h => (.ok (), { s with heap := h })
    | .error e => (.error e, s)

/-- What the caller sees of a call: its value and the state it left, or the
fault. -/
def Exec.result {α : Type} (x : Except Fault α × State) : Except Fault (α × State) :=
  match x with
  | (.ok a, t) => .ok (a, t)
  | (.error e, _) => .error e

/-- The source's `list_remove_front`, statement by statement. -/
def list_remove_front_exec : Exec String := do
  let s ← Exec.state
  Exec.check (list_is_empty s == false)
  let p := s.list.first
  let pn ← Exec.read (deref s.heap p)
  let retval := pn.data
  Exec.put_list (fun l => { l with first := pn.next })
  Exec.put_heap (fun h => set_prev h pn.next none)
  Exec.put_heap (fun h => free h p)
  Exec.put_list (fun l => { l with length := int_pred l.length })
  pure retval

/-- The source's `list_remove_back`, statement by statement. -/
def list_remove_back_exec : Exec String := do
  let s ← Exec.state
  Exec.check (list_is_empty s == false)
  let p := s.list.last
  let pn ← Exec.read (deref s.heap p)
  let retval := pn.data
  Exec.put_list (fun l => { l with last := pn.prev })
  Exec.put_heap (fun h => set_next h pn.prev none)
  Exec.put_heap (fun h => free h p)
  Exec.put_list (fun l => { l with length := int_pred l.length })
  pure retval

/-- The source's `list_remove_at`, statement by statement. -/
def list_remove_at_exec (idx : Int) : Exec String := do
  let s ← Exec.state
  Exec.check (decide (idx ≥ 0) && decide (idx < s.list.length))
  Exec.check (list_is_empty s == false)
  if idx = int_pred s.list.length then
    list_remove_back_exec
  else if idx = 0 then
    list_remove_front_exec
  else do
    let p ← Exec.read (remove_walk s.heap s.list.first idx.toNat)
    let pn ← Exec.read (deref s.heap p)
    let retval := pn.data
    Exec.put_heap (fun h => set_prev h pn.next pn.prev)
    let s1 ← Exec.state
    let pn ← Exec.read (deref s1.heap p)
    Exec.put_heap (fun h => set_next h pn.prev pn.next)
    Exec.put_heap (fun h => free h p)
    Exec.put_list (fun l => { l with length := int_pred l.length })
    pure retval

/-- The source's `list_peek_front`, statement by statement. -/
def list_peek_front_exec : Exec String := do
  let s ← Exec.state
  Exec.check (list_is_empty s == false)
  let n ← Exec.read (deref s.heap s.list.first)
  pure n.data

/-- The source's `list_peek_back`, statement by statement. -/
def list_peek_back_exec : Exec String := do
  let s ← Exec.state
  Exec.check (list_is_empty s == false)
  let n ← Exec.read (deref s.heap s.list.last)
  pure n.data

/-- The source's `iter_get`, statement by statement. -/
def iter_get_exec (dir : Int) : Exec iter := do
  let s ← Exec.state
  Exec.check (list_is_empty s == false)
  Exec.check (decide (dir = ITER_FRONT_TO_BACK) || decide (dir = ITER_BACK_TO_FRONT))
  if dir = ITER_FRONT_TO_BACK then
    pure { cur := s.list.first, dir := ITER_FRONT_TO_BACK }
  else
    pure { cur := s.list.last, dir := ITER_BACK_TO_FRONT }

/-! ## 32-bit arithmetic -/

theorem wrap32_range (x : Int) : INT_MIN ≤ wrap32 x ∧ wrap32 x ≤ INT_MAX := by
  unfold wrap32 INT_MIN INT_MAX; omega

theorem wrap32_of_range {x : Int} (h1 : INT_MIN ≤ x) (h2 : x ≤ INT_MAX) : wrap32 x = x := by
  unfold wrap32; unfold INT_MIN at h1; unfold INT_MAX at h2; omega

theorem wrap32_le {x : Int} (h : 0 ≤ x) : wrap32 x ≤ x := by
  unfold wrap32; omega

theorem int_succ_eq_wrap32 {x : Int} (h1 : INT_MIN ≤ x) (h2 : x ≤ INT_MAX) :
    int_succ x = wrap32 (x + 1) := by
  unfold int_succ wrap32; unfold INT_MIN at *; unfold INT_MAX at *
  split <;> omega

theorem int_pred_eq_wrap32 {x : Int} (h1 : INT_MIN ≤ x) (h2 : x ≤ INT_MAX) :
    int_pred x = wrap32 (x - 1) := by
  unfold int_pred wrap32; unfold INT_MIN at *; unfold INT_MAX at *
  split <;> omega

theorem int_succ_wrap32 (x : Int) : int_succ (wrap32 x) = wrap32 (x + 1) := by
  rw [int_succ_eq_wrap32 (wrap32_range x).1 (wrap32_range x).2]
  unfold wrap32; omega

theorem int_pred_wrap32 (x : Int) : int_pred (wrap32 x) = wrap32 (x - 1) := by
  rw [int_pred_eq_wrap32 (wrap32_range x).1 (wrap32_range x).2]
  unfold wrap32; omega

theorem int_pred_of_pos {x : Int} (h : 0 < x) : int_pred x = x - 1 := by
  unfold int_pred; rw [if_neg (by unfold INT_MIN; omega)]

theorem int_pred_of_gt {x : Int} (h : INT_MIN < x) : int_pred x = x - 1 := by
  unfold int_pred; rw [if_neg (by omega)]

/-! ## Heap lemmas -/

theorem load_lt {h : Heap} {a : Nat} {n : dllnode} (hl : load h a = some n) :
    a < h.length := by
  by_contra hc
  have : h[a]? = none := List.getElem?_eq_none (by omega)
  simp [load, this] at hl

theorem load_length (h : Heap) : load h h.length = none := by
  simp [load]

theorem load_push_old {h : Heap} {a : Nat} (x : Option dllnode) (ha : a < h.length) :
    load (h ++ [x]) a = load h a := by
  simp [load, List.getElem?_append_left ha]

theorem load_push_new (h : Heap) (n : dllnode) :
    load (h ++ [some n]) h.length = some n := by
  simp [load]

theorem load_set_same {h : Heap} {a : Nat} (x : Option dllnode) (ha : a < h.length) :
    load (h.set a x) a = x := by
  simp [load, List.getElem?_set, ha]
  cases x <;> rfl

theorem load_set_other {h : Heap} {a b : Nat} (x : Option dllnode) (hab : a ≠ b) :
    load (h.set a x) b = load h b := by
  simp [load, List.getElem?_set, hab]

/-! ## Chain lemmas -/

@[simp] theorem hdAddr_nil (d : Option Nat) : hdAddr d [] = d := rfl

@[simp] theorem hdAddr_cons (d : Option Nat) (c : Nat × String) (cs : List (Nat × String)) :
    hdAddr d (c :: cs) = some c.1 := rfl

@[simp] theorem lastAddr_nil (d : Option Nat) : lastAddr d [] = d := rfl

@[simp] theorem lastAddr_cons (d : Option Nat) (c : Nat × String) (cs : List (Nat × String)) :
    lastAddr d (c :: cs) = lastAddr (some c.1) cs := rfl

@[simp] theorem seg_nil (h : Heap) (prv nxt : Option Nat) : seg h prv nxt [] ↔ True := Iff.rfl

@[simp] theorem seg_cons (h : Heap) (prv nxt : Option Nat) (c : Nat × String)
    (cs : List (Nat × String)) :
    seg h prv nxt (c :: cs) ↔
      load h c.1 = some { data := c.2, next := hdAddr nxt cs, prev := prv } ∧
      seg h (some c.1) nxt cs := Iff.rfl

theorem hdAddr_append (d : Option Nat) (xs ys : List (Nat × String)) :
    hdAddr d (xs ++ ys) = hdAddr (hdAddr d ys) xs := by
  cases xs <;> rfl

theorem lastAddr_append (d : Option Nat) (xs ys : List (Nat × String)) :
    lastAddr d (xs ++ ys) = lastAddr (lastAddr d xs) ys := by
  induction xs generalizing d with
  | nil => rfl
  | cons c cs ih => simpa using ih (some c.1)

theorem seg_append (h : Heap) (prv nxt : Option Nat) (xs ys : List (Nat × String)) :
    seg h prv nxt (xs ++ ys) ↔
      seg h prv (hdAddr nxt ys) xs ∧ seg h (lastAddr prv xs) nxt ys := by
  induction xs generalizing prv with
  | nil => simp
  | cons c cs ih =>
    simp only [List.cons_append, seg_cons, lastAddr_cons, ih, hdAddr_append, and_assoc]

theorem seg_congr {h k : Heap} {prv nxt : Option Nat} {cs : List (Nat × String)}
    (hk : ∀ c ∈ cs, load k c.1 = load h c.1) (hs : seg h prv nxt cs) : seg k prv nxt cs := by
  induction cs generalizing prv with
  | nil => trivial
  | cons c cs ih =>
    obtain ⟨h1, h2⟩ := hs
    refine ⟨?_, ih (fun d hd => hk d (List.mem_cons_of_mem _ hd)) h2⟩
    rw [hk c (List.mem_cons_self _ _)]; exact h1

theorem seg_live {h : Heap} {prv nxt : Option Nat} {cs : List (Nat × String)}
    (hs : seg h prv nxt cs) : ∀ c ∈ cs, c.1 < h.length := by
  induction cs generalizing prv with
  | nil => intro c hc; cases hc
  | cons c cs ih =>
    obtain ⟨h1, h2⟩ := hs
    intro d hd
    rcases List.mem_cons.1 hd with rfl | hd
    · exact load_lt h1
    · exact ih h2 d hd

theorem seg_fresh {h : Heap} {prv nxt : Option Nat} {cs : List (Nat × String)}
    (hs : seg h prv nxt cs) : h.length ∉ cs.map Prod.fst := by
  intro hm
  obtain ⟨c, hc, he⟩ := List.mem_map.1 hm
  have := seg_live hs c hc
  omega

theorem nodup_length_le {as : List Nat} {n : Nat} (hn : as.Nodup) (hb : ∀ a ∈ as, a < n) :
    as.length ≤ n := by
  have h1 : as.toFinset ⊆ Finset.range n := by
    intro a ha
    simpa using hb a (by simpa using ha)
  have h2 := Finset.card_le_card h1
  rwa [List.toFinset_card_of_nodup hn, Finset.card_range] at h2

theorem collect_next_seg {h : Heap} {prv : Option Nat} {cs : List (Nat × String)} {fuel : Nat}
    (hs : seg h prv none cs) (hf : cs.length < fuel) :
    collect_next h fuel (hdAddr none cs) = .ok (cs.map Prod.snd) := by
  induction cs generalizing prv fuel with
  | nil => cases fuel <;> rfl
  | cons c cs ih =>
    obtain ⟨h1, h2⟩ := hs
    cases fuel with
    | zero => simp at hf
    | succ f =>
      have hf2 : cs.length < f := by simpa using hf
      simp [collect_next, deref, h1, ih h2 hf2, bind, Except.bind, pure, Except.pure]

theorem collect_prev_seg {h : Heap} {nxt : Option Nat} {cs : List (Nat × String)} {fuel : Nat}
    (hs : seg h none nxt cs) (hf : cs.length < fuel) :
    collect_prev h fuel (lastAddr none cs) = .ok (cs.map Prod.snd).reverse := by
  induction cs using List.reverseRecOn generalizing nxt fuel with
  | nil => cases fuel <;> rfl
  | append_singleton cs c ih =>
    rw [seg_append] at hs
    obtain ⟨h1, h2, -⟩ := hs
    cases fuel with
    | zero => simp at hf
    | succ f =>
      have hf2 : cs.length < f := by simpa using hf
      simp only [hdAddr_cons, seg_cons, hdAddr_nil] at h1 h2
      simp [lastAddr_append, collect_prev, deref, h2, ih h1 hf2, bind, Except.bind,
        pure, Except.pure]

theorem Rep.length_le {s : State} {cs : List (Nat × String)} (hr : Rep s cs) :
    cs.length ≤ s.heap.length := by
  have := nodup_length_le hr.2.1 (by
    intro a ha
    obtain ⟨c, hc, rfl⟩ := List.mem_map.1 ha
    exact seg_live hr.1 c hc)
  simpa using this

theorem Rep.front_to_back {s : State} {cs : List (Nat × String)} (hr : Rep s cs) :
    front_to_back s = .ok (cs.map Prod.snd) := by
  unfold DLL.front_to_back
  rw [hr.2.2.1]
  exact collect_next_seg hr.1 (Nat.lt_succ_of_le hr.length_le)

theorem Rep.back_to_front {s : State} {cs : List (Nat × String)} (hr : Rep s cs) :
    back_to_front s = .ok (cs.map Prod.snd).reverse := by
  unfold DLL.back_to_front
  rw [hr.2.2.2]
  exact collect_prev_seg hr.1 (Nat.lt_succ_of_le hr.length_le)

/-! ## Stores and allocation seen through `load` -/

theorem load_set (h : Heap) (a : Nat) (x : Option dllnode) (b : Nat) :
    load (h.set a x) b = if b = a ∧ a < h.length then x else load h b := by
  by_cases hab : b = a
  · subst hab
    by_cases hl : b < h.length
    · simp [hl, load_set_same x hl]
    · simp [hl, List.set_eq_of_length_le (Nat.le_of_not_lt hl)]
  · simp [hab, load_set_other x (Ne.symm hab)]

theorem load_push (h : Heap) (x : Option dllnode) (b : Nat) :
    load (h ++ [x]) b = if b = h.length then x else load h b := by
  by_cases hb : b = h.length
  · subst hb
    cases x <;> simp [load]
  · simp only [hb, if_false]
    rcases Nat.lt_or_gt_of_ne hb with hlt | hgt
    · exact load_push_old x hlt
    · have h1 : (h ++ [x])[b]? = none := List.getElem?_eq_none (by simp; omega)
      have h2 : h[b]? = none := List.getElem?_eq_none (by omega)
      simp [load, h1, h2]

theorem deref_eq {h : Heap} {a : Nat} {n : dllnode} (hl : load h a = some n) :
    deref h (some a) = .ok n := by
  simp [deref, hl]

theorem set_next_eq {h : Heap} {a : Nat} {n : dllnode} (q : Option Nat)
    (hl : load h a = some n) :
    set_next h (some a) q = .ok (h.set a (some { n with next := q })) := by
  simp [set_next, hl]

theorem set_prev_eq {h : Heap} {a : Nat} {n : dllnode} (q : Option Nat)
    (hl : load h a = some n) :
    set_prev h (some a) q = .ok (h.set a (some { n with prev := q })) := by
  simp [set_prev, hl]

theorem hdAddr_ne_none (d : Option Nat) {cs : List (Nat × String)} (hc : cs ≠ []) :
    hdAddr d cs ≠ none := by
  cases cs with
  | nil => exact absurd rfl hc
  | cons c cs => simp

/-! ## The mutators on a well-formed list -/

theorem list_append_nil {s : State} (hr : Rep s []) (v : String) :
    ∃ t, list_append s v = .ok t ∧ Rep t [(s.heap.length, v)] ∧
      t.list.length = s.list.length := by
  obtain ⟨-, -, hf, -⟩ := hr
  simp only [hdAddr_nil] at hf
  refine ⟨{ heap := s.heap ++ [some { data := v, next := none, prev := none }],
             list := { s.list with first := some s.heap.length, last := some s.heap.length } },
    by simp [list_append, hf, node_create], ?_, rfl⟩
  simp [Rep, load_push]

theorem list_append_concat {s : State} {cs : List (Nat × String)} {c : Nat × String}
    (hr : Rep s (cs ++ [c])) (v : String) :
    ∃ t, list_append s v = .ok t ∧ Rep t (cs ++ [c] ++ [(s.heap.length, v)]) ∧
      t.list.length = int_succ s.list.length := by
  obtain ⟨hs, hn, hf, hl⟩ := hr
  have hlive := seg_live hs
  have hs0 := hs
  rw [seg_append] at hs
  obtain ⟨hs1, hs2⟩ := hs
  simp only [seg_cons, hdAddr_nil, seg_nil, and_true, hdAddr_cons] at hs1 hs2
  have hfn : s.list.first ≠ none := by rw [hf]; exact hdAddr_ne_none _ (by simp)
  have hl2 : s.list.last = some c.1 := by rw [hl, lastAddr_append]; rfl
  have hc : c.1 ≠ s.heap.length := Nat.ne_of_lt (load_lt hs2)
  refine ⟨?t, ?e, ?r, ?l⟩
  case e =>
    simp only [list_append, hfn, if_false, node_create, hl2]
    rw [set_prev_eq _ (load_push_new _ _)]
    simp only [bind, Except.bind]
    rw [set_next_eq (n := dllnode.mk c.2 none (lastAddr none cs)) _
      (by simp [load_set, load_push, hc, hs2])]
    simp only []
    rw [set_next_eq (n := dllnode.mk v none (some c.1)) _
      (by simp [load_set, load_push, hc, Ne.symm hc])]
    exact rfl
  case l => rfl
  case r =>
    have hfr : ∀ d ∈ cs, d.1 ≠ c.1 ∧ d.1 ≠ s.heap.length := by
      intro d hd
      refine ⟨?_, Nat.ne_of_lt (hlive d (List.mem_append_left _ hd))⟩
      intro he
      simp only [List.map_append, List.map_cons, List.map_nil] at hn
      have := (List.nodup_append.1 hn).2.2
      exact this (List.mem_map_of_mem Prod.fst hd) (by simp [he])
    refine ⟨?_, ?_, ?_, ?_⟩
    · simp only [List.append_assoc, List.singleton_append]
      rw [seg_append]
      refine ⟨seg_congr ?_ hs1, ?_⟩
      · intro d hd
        obtain ⟨h1, h2⟩ := hfr d hd
        simp [load_set, load_push, h1, h2]
      · simp [load_set, load_push, hc, Ne.symm hc, load_lt hs2]
    · have hfresh := seg_fresh hs0
      simp only [List.map_append, List.map_cons, List.map_nil] at hn hfresh ⊢
      exact List.Nodup.append hn (List.nodup_singleton _) (by simpa using hfresh)
    · simp [hf, hdAddr_append]
    · simp [lastAddr_append]

theorem list_prepend_nil {s : State} (hr : Rep s []) (v : String) :
    ∃ t, list_prepend s v = .ok t ∧ Rep t [(s.heap.length, v)] ∧
      t.list.length = s.list.length := by
  obtain ⟨-, -, hf, -⟩ := hr
  simp only [hdAddr_nil] at hf
  refine ⟨{ heap := s.heap ++ [some { data := v, next := none, prev := none }],
             list := { s.list with first := some s.heap.length, last := some s.heap.length } },
    by simp [list_prepend, hf, node_create], ?_, rfl⟩
  simp [Rep, load_push]

theorem list_prepend_cons {s : State} {cs : List (Nat × String)} {c : Nat × String}
    (hr : Rep s (c :: cs)) (v : String) :
    ∃ t, list_prepend s v = .ok t ∧ Rep t ((s.heap.length, v) :: c :: cs) ∧
      t.list.length = int_succ s.list.length := by
  obtain ⟨hs, hn, hf, hl⟩ := hr
  have hlive := seg_live hs
  have hfresh := seg_fresh hs
  obtain ⟨hs1, hs2⟩ := hs
  have hc : c.1 ≠ s.heap.length := Nat.ne_of_lt (load_lt hs1)
  simp only [hdAddr_cons] at hf
  generalize hres : list_prepend s v = res
  simp [list_prepend, hf, node_create, set_prev, set_next, load_set, load_push, hc, Ne.symm hc,
    hs1, bind, Except.bind, pure, Except.pure, load_lt hs1] at hres
  subst hres
  refine ⟨_, rfl, ⟨?_, ?_, rfl, ?_⟩, rfl⟩
  · simp only [seg_cons, hdAddr_cons]
    refine ⟨?_, ?_, seg_congr ?_ hs2⟩
    · simp [load_set, load_push, hc, Ne.symm hc, load_lt hs1]
    · simp [load_set, load_push, hc, Ne.symm hc, load_lt hs1]
    · intro d hd
      have h1 : d.1 ≠ s.heap.length := Nat.ne_of_lt (hlive d (List.mem_cons_of_mem _ hd))
      have h2 : d.1 ≠ c.1 := by
        intro he
        simp only [List.map_cons, List.nodup_cons] at hn
        exact hn.1 (he ▸ List.mem_map_of_mem Prod.fst hd)
      simp [load_set, load_push, h1, h2]
  · simp only [List.map_cons] at hn hfresh ⊢
    exact List.nodup_cons.2 ⟨hfresh, hn⟩
  · simpa using hl

theorem addr_ne_of_split (xs ys : List (Nat × String))
    (hn : ((xs ++ ys).map Prod.fst).Nodup) {d e : Nat × String} (hd : d ∈ xs) (he : e ∈ ys) :
    d.1 ≠ e.1 := by
  rw [List.map_append] at hn
  intro h
  exact (List.nodup_append.1 hn).2.2 (List.mem_map_of_mem Prod.fst hd)
    (h ▸ List.mem_map_of_mem Prod.fst he)

theorem lastAddr_ne_none (d : Option Nat) {cs : List (Nat × String)} (hc : cs ≠ []) :
    lastAddr d cs ≠ none := by
  induction cs generalizing d with
  | nil => exact absurd rfl hc
  | cons c cs ih =>
    cases cs with
    | nil => simp
    | cons e es => exact ih (some c.1) (by simp)

theorem list_is_empty_rep {s : State} {cs : List (Nat × String)} (hr : Rep s cs) :
    list_is_empty s = decide (cs = []) := by
  obtain ⟨-, -, hf, hl⟩ := hr
  cases cs with
  | nil => simp [list_is_empty, hf]
  | cons c cs =>
    have h2 := lastAddr_ne_none none (List.cons_ne_nil c cs)
    simp only [lastAddr_cons] at h2
    simp [list_is_empty, hf, hl, h2]

theorem list_remove_front_cons {s : State} {a b : Nat × String} {cs : List (Nat × String)}
    (hr : Rep s (a :: b :: cs)) :
    ∃ t, list_remove_front s = .ok (a.2, t) ∧ Rep t (b :: cs) ∧
      t.list.length = int_pred s.list.length := by
  have hemp := list_is_empty_rep hr
  obtain ⟨hs, hn, hf, hl⟩ := hr
  have hlive := seg_live hs
  obtain ⟨hs1, hs2, hs3⟩ := hs
  simp only [hdAddr_cons] at hf hs1
  have hab : a.1 ≠ b.1 := addr_ne_of_split ([a]) (b :: cs) hn (by simp) (by simp)
  generalize hres : list_remove_front s = res
  simp [list_remove_front, hemp, assert, deref, hf, hs1, hs2, set_prev, free, load_set, hab,
    bind, Except.bind, pure, Except.pure] at hres
  subst hres
  refine ⟨_, rfl, ⟨?_, ?_, rfl, ?_⟩, rfl⟩
  · refine ⟨?_, seg_congr ?_ hs3⟩
    · simp [load_set, Ne.symm hab, load_lt hs2]
    · intro d hd
      have h1 : d.1 ≠ a.1 :=
        (addr_ne_of_split ([a]) (b :: cs) hn (by simp)
          (List.mem_cons_of_mem _ hd)).symm
      have h2 : d.1 ≠ b.1 :=
        (addr_ne_of_split ([a, b]) (cs) hn (by simp) hd).symm
      simp [load_set, h1, h2]
  · simp only [List.map_cons, List.nodup_cons] at hn ⊢
    exact hn.2
  · simpa using hl

theorem list_remove_front_single {s : State} {a : Nat × String} (hr : Rep s [a]) :
    list_remove_front s = .error .invalid_access := by
  have hemp := list_is_empty_rep hr
  obtain ⟨hs, -, hf, -⟩ := hr
  obtain ⟨hs1, -⟩ := hs
  simp only [hdAddr_cons, hdAddr_nil] at hf hs1
  simp [list_remove_front, hemp, assert, deref, hf, hs1, set_prev, bind, Except.bind]

theorem list_remove_front_nil {s : State} (hr : Rep s []) :
    list_remove_front s = .error .assert_failed := by
  have hemp := list_is_empty_rep hr
  simp [list_remove_front, hemp, assert, bind, Except.bind]

theorem list_remove_back_concat {s : State} {a b : Nat × String} {cs : List (Nat × String)}
    (hr : Rep s (cs ++ [a, b])) :
    ∃ t, list_remove_back s = .ok (b.2, t) ∧ Rep t (cs ++ [a]) ∧
      t.list.length = int_pred s.list.length := by
  have hemp := list_is_empty_rep hr
  obtain ⟨hs, hn, hf, hl⟩ := hr
  have hlive := seg_live hs
  rw [seg_append] at hs
  obtain ⟨hs1, hs2, hs3, -⟩ := hs
  simp only [hdAddr_cons, hdAddr_nil, lastAddr_append, lastAddr_cons, lastAddr_nil] at hl hs1 hs2 hs3
  have hab : a.1 ≠ b.1 :=
    addr_ne_of_split (cs ++ [a]) ([b]) (by simpa using hn) (by simp) (by simp)
  generalize hres : list_remove_back s = res
  simp [list_remove_back, hemp, assert, deref, hl, hs2, hs3, set_next, free, load_set, hab,
    Ne.symm hab, bind, Except.bind, pure, Except.pure] at hres
  subst hres
  refine ⟨_, rfl, ⟨?_, ?_, ?_, ?_⟩, rfl⟩
  · rw [seg_append]
    refine ⟨seg_congr ?_ hs1, ?_⟩
    · intro d hd
      have h1 : d.1 ≠ a.1 := addr_ne_of_split (cs) ([a, b]) hn hd (by simp)
      have h2 : d.1 ≠ b.1 := addr_ne_of_split (cs) ([a, b]) hn hd (by simp)
      simp [load_set, h1, h2]
    · simp [load_set, hab, load_lt hs2]
  · have h1 : cs ++ [a, b] = (cs ++ [a]) ++ [b] := by simp
    rw [h1, List.map_append] at hn
    exact (List.nodup_append.1 hn).1
  · simp [hf, hdAddr_append]
  · simp [lastAddr_append]

theorem list_remove_back_single {s : State} {a : Nat × String} (hr : Rep s [a]) :
    list_remove_back s = .error .invalid_access := by
  have hemp := list_is_empty_rep hr
  obtain ⟨hs, -, -, hl⟩ := hr
  obtain ⟨hs1, -⟩ := hs
  simp only [hdAddr_nil, lastAddr_cons, lastAddr_nil] at hl hs1
  simp [list_remove_back, hemp, assert, deref, hl, hs1, set_next, bind, Except.bind]

theorem list_remove_back_nil {s : State} (hr : Rep s []) :
    list_remove_back s = .error .assert_failed := by
  have hemp := list_is_empty_rep hr
  simp [list_remove_back, hemp, assert, bind, Except.bind]

theorem insert_walk_seg {h : Heap} {prv nxt : Option Nat} {xs ys : List (Nat × String)}
    (hs : seg h prv nxt (xs ++ ys)) :
    insert_walk h (hdAddr nxt (xs ++ ys)) xs.length = .ok (hdAddr nxt ys) := by
  induction xs generalizing prv with
  | nil => rfl
  | cons c xs ih =>
    obtain ⟨h1, h2⟩ := hs
    simp only [List.cons_append, hdAddr_cons, List.length_cons, insert_walk, deref_eq h1, bind,
      Except.bind]
    exact ih h2

theorem remove_walk_seg {h : Heap} {prv nxt : Option Nat} {xs ys : List (Nat × String)}
    (hs : seg h prv nxt (xs ++ ys)) :
    remove_walk h (hdAddr nxt (xs ++ ys)) xs.length = .ok (hdAddr nxt ys) := by
  induction xs generalizing prv with
  | nil => rfl
  | cons c xs ih =>
    obtain ⟨h1, h2⟩ := hs
    simp only [List.cons_append, hdAddr_cons, List.length_cons, remove_walk, deref_eq h1, bind,
      Except.bind]
    exact ih h2

theorem list_insert_at_mid {s : State} {pre post : List (Nat × String)} {p q : Nat × String}
    (hr : Rep s (pre ++ p :: q :: post)) (v : String) (idx : Int)
    (hidx : idx = (pre.length : Int) + 1) (hlen : idx < s.list.length) :
    ∃ t, list_insert_at s v idx = .ok t ∧
      Rep t (pre ++ p :: (s.heap.length, v) :: q :: post) ∧
      t.list.length = int_succ s.list.length := by
  obtain ⟨hs, hn, hf, hl⟩ := hr
  have hlive := seg_live hs
  have hfresh := seg_fresh hs
  have hw := insert_walk_seg hs
  rw [← hf] at hw
  rw [seg_append] at hs
  obtain ⟨hs1, hs2, hs3, hs4⟩ := hs
  simp only [hdAddr_cons] at hs1 hs2 hs3 hw
  have hk : (idx - 1).toNat = pre.length := by omega
  have hpq : p.1 ≠ q.1 :=
    addr_ne_of_split (pre ++ [p]) (q :: post) (by simpa using hn) (by simp) (by simp)
  have hp : p.1 ≠ s.heap.length := Nat.ne_of_lt (load_lt hs2)
  have hq : q.1 ≠ s.heap.length := Nat.ne_of_lt (load_lt hs3)
  have h0 : idx ≠ 0 := by omega
  have ha : (decide (idx ≥ 0) && decide (idx ≤ s.list.length)) = true := by
    simp; omega
  generalize hres : list_insert_at s v idx = res
  simp [list_insert_at, ha, assert, Int.ne_of_lt hlen, h0, hk, hw, node_create, deref, set_next,
    set_prev, load_set, load_push, hpq, Ne.symm hpq, hp, Ne.symm hp, hq, Ne.symm hq, hs2, hs3,
    load_lt hs2, load_lt hs3, bind, Except.bind, pure, Except.pure] at hres
  subst hres
  refine ⟨_, rfl, ⟨?_, ?_, ?_, ?_⟩, rfl⟩
  · rw [seg_append]
    refine ⟨seg_congr ?_ hs1, ?_, ?_, ?_, seg_congr ?_ hs4⟩
    · intro d hd
      have h1 : d.1 ≠ p.1 := addr_ne_of_split (pre) (p :: q :: post) hn hd (by simp)
      have h2 : d.1 ≠ q.1 := addr_ne_of_split (pre) (p :: q :: post) hn hd (by simp)
      have h3 : d.1 ≠ s.heap.length := Nat.ne_of_lt (hlive d (List.mem_append_left _ hd))
      simp [load_set, load_push, h1, h2, h3]
    · simp [load_set, load_push, hpq, Ne.symm hpq, hp, Ne.symm hp, hq, Ne.symm hq, hs2,
        load_lt hs2, load_lt hs3]
    · simp [load_set, load_push, hpq, Ne.symm hpq, hp, Ne.symm hp, hq, Ne.symm hq,
        load_lt hs2, load_lt hs3]
    · simp [load_set, load_push, hpq, Ne.symm hpq, hp, Ne.symm hp, hq, Ne.symm hq, hs3,
        load_lt hs2, load_lt hs3]
    · intro d hd
      have hd2 : d ∈ pre ++ p :: q :: post := by simp [hd]
      have h1 : d.1 ≠ p.1 :=
        (addr_ne_of_split (pre ++ [p]) (q :: post) (by simpa using hn) (by simp)
          (List.mem_cons_of_mem _ hd)).symm
      have h2 : d.1 ≠ q.1 :=
        (addr_ne_of_split (pre ++ [p, q]) (post) (by simpa using hn) (by simp)
          hd).symm
      have h3 : d.1 ≠ s.heap.length := Nat.ne_of_lt (hlive d hd2)
      simp [load_set, load_push, h1, h2, h3]
  · simp only [List.map_append, List.map_cons, List.mem_append, List.mem_cons, not_or] at hn hfresh ⊢
    rw [List.nodup_append] at hn ⊢
    obtain ⟨n1, n2, n3⟩ := hn
    rw [List.nodup_cons] at n2
    refine ⟨n1, ?_, ?_⟩
    · rw [List.nodup_cons, List.nodup_cons]
      refine ⟨?_, ?_, n2.2⟩
      · simp only [List.mem_cons, not_or]
        exact ⟨hp, by simpa using n2.1⟩
      · simpa using hfresh.2.2
    · intro x hx1 hx2
      rcases List.mem_cons.1 hx2 with rfl | hx2
      · exact n3 hx1 (by simp)
      · rcases List.mem_cons.1 hx2 with rfl | hx2
        · exact hfresh.1 hx1
        · exact n3 hx1 (List.mem_cons_of_mem _ hx2)
  · simp [hf, hdAddr_append]
  · simp [hl, lastAddr_append]

theorem list_remove_at_mid {s : State} {pre post : List (Nat × String)} {a p b : Nat × String}
    (hr : Rep s (pre ++ a :: p :: b :: post)) (idx : Int)
    (hidx : idx = (pre.length : Int) + 1) (hlen : idx < s.list.length)
    (hne : idx ≠ int_pred s.list.length) :
    ∃ t, list_remove_at s idx = .ok (p.2, t) ∧ Rep t (pre ++ a :: b :: post) ∧
      t.list.length = int_pred s.list.length := by
  have hemp := list_is_empty_rep hr
  obtain ⟨hs, hn, hf, hl⟩ := hr
  have hlive := seg_live hs
  have hw : remove_walk s.heap s.list.first idx.toNat = .ok (some p.1) := by
    have h1 : pre ++ a :: p :: b :: post = (pre ++ [a]) ++ p :: b :: post := by simp
    have h2 : idx.toNat = (pre ++ [a]).length := by simp; omega
    have := hs
    rw [h1] at this
    have hw := remove_walk_seg this
    rw [← h1, ← hf, ← h2] at hw
    simpa using hw
  rw [seg_append] at hs
  obtain ⟨hs1, hs2, hs3, hs4, hs5⟩ := hs
  simp only [hdAddr_cons] at hs1 hs2 hs3 hs4
  have hap : a.1 ≠ p.1 :=
    addr_ne_of_split (pre ++ [a]) (p :: b :: post) (by simpa using hn) (by simp)
      (by simp)
  have hab : a.1 ≠ b.1 :=
    addr_ne_of_split (pre ++ [a]) (p :: b :: post) (by simpa using hn) (by simp)
      (by simp)
  have hpb : p.1 ≠ b.1 :=
    addr_ne_of_split (pre ++ [a, p]) (b :: post) (by simpa using hn) (by simp)
      (by simp)
  have h0 : idx ≠ 0 := by omega
  have ha : (decide (idx ≥ 0) && decide (idx < s.list.length)) = true := by
    simp; omega
  generalize hres : list_remove_at s idx = res
  simp [list_remove_at, ha, hemp, assert, hne, h0, hw, deref, set_next,
    set_prev, free, load_set, hap, Ne.symm hap, hab, Ne.symm hab, hpb, Ne.symm hpb, hs2, hs3, hs4,
    load_lt hs2, load_lt hs3, load_lt hs4, bind, Except.bind, pure, Except.pure] at hres
  subst hres
  refine ⟨_, rfl, ⟨?_, ?_, ?_, ?_⟩, rfl⟩
  · rw [seg_append]
    refine ⟨seg_congr ?_ hs1, ?_, ?_, seg_congr ?_ hs5⟩
    · intro d hd
      have h1 : d.1 ≠ a.1 :=
        addr_ne_of_split (pre) (a :: p :: b :: post) hn hd (by simp)
      have h2 : d.1 ≠ p.1 :=
        addr_ne_of_split (pre) (a :: p :: b :: post) hn hd (by simp)
      have h3 : d.1 ≠ b.1 :=
        addr_ne_of_split (pre) (a :: p :: b :: post) hn hd (by simp)
      simp [load_set, h1, h2, h3]
    · simp [load_set, hap, Ne.symm hap, hab, Ne.symm hab, hpb, Ne.symm hpb, hs2,
        load_lt hs2, load_lt hs3, load_lt hs4]
    · simp [load_set, hap, Ne.symm hap, hab, Ne.symm hab, hpb, Ne.symm hpb, hs4,
        load_lt hs2, load_lt hs3, load_lt hs4]
    · intro d hd
      have h1 : d.1 ≠ a.1 :=
        (addr_ne_of_split (pre ++ [a]) (p :: b :: post) (by simpa using hn)
          (by simp) (by simp [hd])).symm
      have h2 : d.1 ≠ p.1 :=
        (addr_ne_of_split (pre ++ [a, p]) (b :: post) (by simpa using hn)
          (by simp) (by simp [hd])).symm
      have h3 : d.1 ≠ b.1 :=
        (addr_ne_of_split (pre ++ [a, p, b]) (post) (by simpa using hn)
          (by simp) hd).symm
      simp [load_set, h1, h2, h3]
  · have hsub : (pre ++ a :: b :: post).Sublist (pre ++ a :: p :: b :: post) :=
      List.Sublist.append_left
        (List.Sublist.cons₂ a (List.Sublist.cons p (List.Sublist.refl _))) pre
    exact List.Nodup.sublist (List.Sublist.map Prod.fst hsub) hn
  · simp [hf, hdAddr_append]
  · simp [hl, lastAddr_append]

/-! ## Index-level statements -/

theorem split2 {α : Type} (cs : List α) (i : Nat) (h : i + 1 < cs.length) :
    ∃ pre p q post, cs = pre ++ p :: q :: post ∧ pre.length = i := by
  refine ⟨cs.take i, cs[i], cs[i + 1], cs.drop (i + 2), ?_, by simp; omega⟩
  rw [← List.drop_eq_getElem_cons (by omega), ← List.drop_eq_getElem_cons (by omega),
    List.take_append_drop]

theorem split3 {α : Type} (cs : List α) (i : Nat) (h : i + 2 < cs.length) :
    ∃ pre a p b post, cs = pre ++ a :: p :: b :: post ∧ pre.length = i := by
  refine ⟨cs.take i, cs[i], cs[i + 1], cs[i + 2], cs.drop (i + 3), ?_, by simp; omega⟩
  rw [← List.drop_eq_getElem_cons (by omega), ← List.drop_eq_getElem_cons (by omega),
    ← List.drop_eq_getElem_cons (by omega), List.take_append_drop]

theorem list_insert_at_out_of_range (s : State) (v : String) (idx : Int)
    (h : idx < 0 ∨ s.list.length < idx) :
    list_insert_at s v idx = .error .assert_failed := by
  have ha : (decide (idx ≥ 0) && decide (idx ≤ s.list.length)) = false := by
    rcases h with h | h
    · simp; intro; omega
    · simp; intro; omega
  simp [list_insert_at, ha, assert, bind, Except.bind]

theorem list_remove_at_out_of_range (s : State) (idx : Int)
    (h : idx < 0 ∨ s.list.length ≤ idx) :
    list_remove_at s idx = .error .assert_failed := by
  have ha : (decide (idx ≥ 0) && decide (idx < s.list.length)) = false := by
    rcases h with h | h
    · simp; intro; omega
    · simp; intro; omega
  simp [list_remove_at, ha, assert, bind, Except.bind]

theorem list_remove_at_nil {s : State} (hr : Rep s []) (idx : Int) :
    list_remove_at s idx = .error .assert_failed := by
  have hemp := list_is_empty_rep hr
  by_cases ha : (decide (idx ≥ 0) && decide (idx < s.list.length)) = true
  · simp [list_remove_at, ha, hemp, assert, bind, Except.bind]
  · simp [list_remove_at, ha, assert, bind, Except.bind]

theorem list_remove_at_single {s : State} {a : Nat × String} (hr : Rep s [a])
    (hlen : s.list.length = 1) (idx : Int) :
    list_remove_at s idx = .error .invalid_access ∨
      list_remove_at s idx = .error .assert_failed := by
  have hemp := list_is_empty_rep hr
  by_cases ha : (decide (idx ≥ 0) && decide (idx < s.list.length)) = true
  · left
    have hi : idx = int_pred s.list.length := by
      rw [int_pred_of_pos (by omega)]
      simp at ha; omega
    simp only [list_remove_at, ha, hemp, assert, if_true, bind, Except.bind, if_pos hi]
    simpa using list_remove_back_single hr
  · right
    simp [list_remove_at, ha, assert, bind, Except.bind]

theorem split_last2 {α : Type} (cs : List α) (h : 2 ≤ cs.length) :
    ∃ pre a b, cs = pre ++ [a, b] := by
  obtain ⟨pre, a, b, post, he, hpre⟩ := split2 cs (cs.length - 2) (by omega)
  have hpost : post = [] := by
    apply List.eq_nil_of_length_eq_zero
    have := congrArg List.length he
    simp only [List.length_append, List.length_cons] at this
    omega
  subst hpost
  exact ⟨pre, a, b, he⟩

theorem list_append_rep {s : State} {cs : List (Nat × String)} (hr : Rep s cs) (v : String) :
    ∃ t, list_append s v = .ok t ∧ Rep t (cs ++ [(s.heap.length, v)]) ∧
      t.list.length = (if cs = [] then s.list.length else int_succ s.list.length) := by
  rcases List.eq_nil_or_concat cs with rfl | ⟨init, c, rfl⟩
  · obtain ⟨t, ht, hrt, hlt⟩ := list_append_nil hr v
    exact ⟨t, ht, hrt, by rw [hlt]; simp⟩
  · rw [List.concat_eq_append] at hr ⊢
    obtain ⟨t, ht, hrt, hlt⟩ := list_append_concat hr v
    exact ⟨t, ht, hrt, by rw [hlt]; simp⟩

theorem list_prepend_rep {s : State} {cs : List (Nat × String)} (hr : Rep s cs) (v : String) :
    ∃ t, list_prepend s v = .ok t ∧ Rep t ((s.heap.length, v) :: cs) ∧
      t.list.length = (if cs = [] then s.list.length else int_succ s.list.length) := by
  cases cs with
  | nil =>
    obtain ⟨t, ht, hrt, hlt⟩ := list_prepend_nil hr v
    exact ⟨t, ht, hrt, by rw [hlt]; simp⟩
  | cons c cs =>
    obtain ⟨t, ht, hrt, hlt⟩ := list_prepend_cons hr v
    exact ⟨t, ht, hrt, by rw [hlt]; simp⟩

theorem insert_walk_past {h : Heap} {prv : Option Nat} {cs : List (Nat × String)} {k : Nat}
    (hs : seg h prv none cs) (hk : cs.length < k) :
    insert_walk h (hdAddr none cs) k = .error .invalid_access := by
  induction cs generalizing prv k with
  | nil =>
    cases k with
    | zero => simp at hk
    | succ k => simp [insert_walk, deref, bind, Except.bind]
  | cons c cs ih =>
    obtain ⟨h1, h2⟩ := hs
    cases k with
    | zero => simp at hk
    | succ k =>
      simp only [hdAddr_cons, insert_walk, deref_eq h1, bind, Except.bind]
      exact ih h2 (by simpa using hk)

theorem remove_walk_past {h : Heap} {prv : Option Nat} {cs : List (Nat × String)} {k : Nat}
    (hs : seg h prv none cs) (hk : cs.length ≤ k) :
    remove_walk h (hdAddr none cs) k = .ok none := by
  induction cs generalizing prv k with
  | nil => cases k <;> rfl
  | cons c cs ih =>
    obtain ⟨h1, h2⟩ := hs
    cases k with
    | zero => simp at hk
    | succ k =>
      simp only [hdAddr_cons, remove_walk, deref_eq h1, bind, Except.bind]
      exact ih h2 (by simpa using hk)

theorem list_insert_at_mid_fault {s : State} {cs : List (Nat × String)} (hr : Rep s cs)
    (v : String) (idx : Int) (h1 : 1 ≤ idx) (hne : idx ≠ s.list.length)
    (hle : idx ≤ s.list.length) (hbig : cs.length ≤ idx.toNat) :
    list_insert_at s v idx = .error .invalid_access := by
  obtain ⟨hs, hn, hf, hl⟩ := hr
  have ha : (decide (idx ≥ 0) && decide (idx ≤ s.list.length)) = true := by
    simp; omega
  have h0 : idx ≠ 0 := by omega
  obtain ⟨k, hk⟩ : ∃ k, (idx - 1).toNat = k := ⟨_, rfl⟩
  have hkb : cs.length ≤ k + 1 := by omega
  rcases Nat.lt_or_ge cs.length k with hlt | hge
  · have hw := insert_walk_past hs hlt
    rw [← hf] at hw
    simp [list_insert_at, ha, assert, hne, h0, hk, hw, bind, Except.bind]
  · rcases Nat.eq_or_lt_of_le hge with heq | hlt
    · have hw := @insert_walk_seg s.heap none none cs [] (by simpa using hs)
      simp only [List.append_nil, hdAddr_nil] at hw
      rw [← hf, ← heq] at hw
      simp [list_insert_at, ha, assert, hne, h0, hk, hw, node_create, deref, bind, Except.bind]
    · have hcl : cs.length = k + 1 := by omega
      have hne2 : cs ≠ [] := by
        intro h; rw [h] at hcl; simp at hcl
      rcases List.eq_nil_or_concat cs with h | ⟨pre, c, rfl⟩
      · exact absurd h hne2
      rw [List.concat_eq_append] at hs hf hcl
      have hw := insert_walk_seg hs
      rw [← hf] at hw
      have hpl : pre.length = k := by simpa using hcl
      rw [hpl] at hw
      simp only [hdAddr_cons] at hw
      rw [seg_append] at hs
      obtain ⟨-, hc, -⟩ := hs
      simp only [hdAddr_nil] at hc
      have hcn : c.1 ≠ s.heap.length := Nat.ne_of_lt (load_lt hc)
      simp [list_insert_at, ha, assert, hne, h0, hk, hw, node_create, deref, set_next, set_prev,
        load_set, load_push, hcn, Ne.symm hcn, hc, bind, Except.bind]

theorem list_remove_at_mid_fault {s : State} {cs : List (Nat × String)} (hr : Rep s cs)
    (idx : Int) (h1 : 1 ≤ idx) (hne : idx ≠ int_pred s.list.length) (hlt : idx < s.list.length)
    (hcs : cs ≠ []) (hbig : cs.length ≤ idx.toNat + 1) :
    list_remove_at s idx = .error .invalid_access := by
  have hemp := list_is_empty_rep hr
  simp only [hcs, decide_False] at hemp
  obtain ⟨hs, hn, hf, hl⟩ := hr
  have ha : (decide (idx ≥ 0) && decide (idx < s.list.length)) = true := by
    simp; omega
  have h0 : idx ≠ 0 := by omega
  rcases Nat.lt_or_ge idx.toNat cs.length with hlt2 | hge
  · have hcl : cs.length = idx.toNat + 1 := by omega
    rcases List.eq_nil_or_concat cs with h | ⟨pre, c, rfl⟩
    · exact absurd h hcs
    rw [List.concat_eq_append] at hs hf hcl
    have hw := remove_walk_seg hs
    rw [← hf] at hw
    have hpl : pre.length = idx.toNat := by simpa using hcl
    rw [hpl] at hw
    simp only [hdAddr_cons] at hw
    rw [seg_append] at hs
    obtain ⟨-, hc, -⟩ := hs
    simp only [hdAddr_nil] at hc
    simp [list_remove_at, ha, hemp, assert, hne, h0, hw, deref, set_prev, hc, bind, Except.bind]
  · have hw := remove_walk_past hs hge
    rw [← hf] at hw
    simp [list_remove_at, ha, hemp, assert, hne, h0, hw, deref, bind, Except.bind]

theorem Rep.keeps_insert_at {s t : State} {cs : List (Nat × String)} {v : String} {idx : Int}
    (hr : Rep s cs) (ht : list_insert_at s v idx = .ok t) :
    ∃ ds, Rep t ds ∧ ds.length = cs.length + 1 ∧
      t.list.length = (if cs = [] then s.list.length else int_succ s.list.length) := by
  by_cases h : idx < 0 ∨ s.list.length < idx
  · rw [list_insert_at_out_of_range s v idx h] at ht; cases ht
  have ha : (decide (idx ≥ 0) && decide (idx ≤ s.list.length)) = true := by
    simp; omega
  by_cases hA : idx = s.list.length
  · have he : list_insert_at s v idx = list_append s v := by
      simp only [list_insert_at, ha, assert, if_true, bind, Except.bind, if_pos hA]
    obtain ⟨u, hu, hru, hlu⟩ := list_append_rep hr v
    rw [he, hu] at ht; cases ht
    exact ⟨_, hru, by simp, hlu⟩
  by_cases hB : idx = 0
  · have he : list_insert_at s v idx = list_prepend s v := by
      simp only [list_insert_at, ha, assert, if_true, bind, Except.bind, if_neg hA, if_pos hB]
    obtain ⟨u, hu, hru, hlu⟩ := list_prepend_rep hr v
    rw [he, hu] at ht; cases ht
    exact ⟨_, hru, by simp, hlu⟩
  by_cases hbig : cs.length ≤ idx.toNat
  · rw [list_insert_at_mid_fault hr v idx (by omega) hA (by omega) hbig] at ht; cases ht
  · obtain ⟨pre, p, q, post, rfl, hpre⟩ := split2 cs (idx.toNat - 1) (by omega)
    obtain ⟨u, hu, hru, hlu⟩ := list_insert_at_mid hr v idx (by omega) (by omega)
    rw [hu] at ht; cases ht
    exact ⟨_, hru, by simp; omega, by rw [hlu]; simp⟩

theorem Rep.keeps_remove_front {s t : State} {cs : List (Nat × String)} {r : String}
    (hr : Rep s cs) (ht : list_remove_front s = .ok (r, t)) :
    ∃ ds, Rep t ds ∧ ds.length + 1 = cs.length ∧ 1 ≤ ds.length ∧
      t.list.length = int_pred s.list.length := by
  match cs, hr with
  | [], hr => rw [list_remove_front_nil hr] at ht; cases ht
  | [a], hr => rw [list_remove_front_single hr] at ht; cases ht
  | a :: b :: cs, hr =>
    obtain ⟨u, hu, hru, hlu⟩ := list_remove_front_cons hr
    rw [ht] at hu; cases hu
    exact ⟨_, hru, by simp, by simp, hlu⟩

theorem Rep.keeps_remove_back {s t : State} {cs : List (Nat × String)} {r : String}
    (hr : Rep s cs) (ht : list_remove_back s = .ok (r, t)) :
    ∃ ds, Rep t ds ∧ ds.length + 1 = cs.length ∧ 1 ≤ ds.length ∧
      t.list.length = int_pred s.list.length := by
  match cs, hr with
  | [], hr => rw [list_remove_back_nil hr] at ht; cases ht
  | [a], hr => rw [list_remove_back_single hr] at ht; cases ht
  | a :: b :: cs, hr =>
    obtain ⟨pre, x, y, he⟩ := split_last2 (a :: b :: cs) (by simp)
    rw [he] at hr ⊢
    obtain ⟨u, hu, hru, hlu⟩ := list_remove_back_concat hr
    rw [ht] at hu; cases hu
    exact ⟨_, hru, by simp, by simp, hlu⟩

theorem Rep.keeps_remove_at {s t : State} {cs : List (Nat × String)} {r : String} {idx : Int}
    (hr : Rep s cs) (ht : list_remove_at s idx = .ok (r, t)) :
    ∃ ds, Rep t ds ∧ ds.length + 1 = cs.length ∧ 1 ≤ ds.length ∧
      t.list.length = int_pred s.list.length := by
  by_cases h : idx < 0 ∨ s.list.length ≤ idx
  · rw [list_remove_at_out_of_range s idx h] at ht; cases ht
  by_cases hcs : cs = []
  · subst hcs
    rw [list_remove_at_nil hr] at ht; cases ht
  have hemp := list_is_empty_rep hr
  simp only [hcs, decide_False] at hemp
  have ha : (decide (idx ≥ 0) && decide (idx < s.list.length)) = true := by
    simp; omega
  by_cases hA : idx = int_pred s.list.length
  · have he : list_remove_at s idx = list_remove_back s := by
      simp only [list_remove_at, ha, hemp, assert, if_true, bind, Except.bind, if_pos hA]
      simp
    rw [he] at ht
    exact hr.keeps_remove_back ht
  by_cases hB : idx = 0
  · have he : list_remove_at s idx = list_remove_front s := by
      simp only [list_remove_at, ha, hemp, assert, if_true, bind, Except.bind, if_neg hA,
        if_pos hB]
      simp
    rw [he] at ht
    exact hr.keeps_remove_front ht
  by_cases hbig : cs.length ≤ idx.toNat + 1
  · rw [list_remove_at_mid_fault hr idx (by omega) hA (by omega) hcs hbig] at ht; cases ht
  · obtain ⟨pre, a, p, b, post, rfl, hpre⟩ := split3 cs (idx.toNat - 1) (by omega)
    obtain ⟨u, hu, hru, hlu⟩ := list_remove_at_mid hr idx (by omega) (by omega) hA
    rw [ht] at hu; cases hu
    exact ⟨_, hru, by simp; omega, by simp; omega, hlu⟩

theorem list_insert_at_total {s : State} {cs : List (Nat × String)} (hr : Rep s cs)
    (hlen : s.list.length = wrap32 (max 1 (cs.length : Int))) (v : String) (idx : Int)
    (h0 : 0 ≤ idx) (h1 : idx ≤ s.list.length) : ∃ t, list_insert_at s v idx = .ok t := by
  have ha : (decide (idx ≥ 0) && decide (idx ≤ s.list.length)) = true := by
    simp; omega
  by_cases hA : idx = s.list.length
  · have he : list_insert_at s v idx = list_append s v := by
      simp only [list_insert_at, ha, assert, if_true, bind, Except.bind, if_pos hA]
    obtain ⟨u, hu, -⟩ := list_append_rep hr v
    exact ⟨u, by rw [he, hu]⟩
  by_cases hB : idx = 0
  · have he : list_insert_at s v idx = list_prepend s v := by
      simp only [list_insert_at, ha, assert, if_true, bind, Except.bind, if_neg hA, if_pos hB]
    obtain ⟨u, hu, -⟩ := list_prepend_rep hr v
    exact ⟨u, by rw [he, hu]⟩
  have hle : s.list.length ≤ max 1 (cs.length : Int) := by
    rw [hlen]; exact wrap32_le (by omega)
  obtain ⟨pre, p, q, post, rfl, hpre⟩ := split2 cs (idx.toNat - 1) (by omega)
  obtain ⟨u, hu, -⟩ := list_insert_at_mid hr v idx (by omega) (by omega)
  exact ⟨u, hu⟩

theorem wrap32_insert (n : Nat) (l : Int) (hl : l = wrap32 (max 1 (n : Int))) :
    (if n = 0 then l else int_succ l) = wrap32 (max 1 ((n + 1 : Nat) : Int)) := by
  subst hl
  split
  · next h => subst h; rfl
  · next h =>
    rw [int_succ_wrap32]
    congr 1
    push_cast
    omega

theorem wrap32_remove (n m : Nat) (l : Int) (hl : l = wrap32 (max 1 (n : Int)))
    (hm : m + 1 = n) (h1 : 1 ≤ m) :
    int_pred l = wrap32 (max 1 (m : Int)) := by
  subst hl
  rw [int_pred_wrap32]
  congr 1
  omega

/-! ## The invariant of reachable states -/

theorem Inv.append {s t : State} {v : String} (hi : Inv s) (ht : list_append s v = .ok t) :
    Inv t := by
  obtain ⟨cs, hr, hlen⟩ := hi
  obtain ⟨u, hu, hru, hlu⟩ := list_append_rep hr v
  rw [ht] at hu; cases hu
  refine ⟨_, hru, ?_⟩
  rw [hlu, List.length_append, List.length_singleton, ← wrap32_insert cs.length _ hlen]
  simp only [List.length_eq_zero]

theorem Inv.prepend {s t : State} {v : String} (hi : Inv s) (ht : list_prepend s v = .ok t) :
    Inv t := by
  obtain ⟨cs, hr, hlen⟩ := hi
  obtain ⟨u, hu, hru, hlu⟩ := list_prepend_rep hr v
  rw [ht] at hu; cases hu
  refine ⟨_, hru, ?_⟩
  rw [hlu, List.length_cons, ← wrap32_insert cs.length _ hlen]
  simp only [List.length_eq_zero]

theorem Inv.insert_at {s t : State} {v : String} {idx : Int} (hi : Inv s)
    (ht : list_insert_at s v idx = .ok t) : Inv t := by
  obtain ⟨cs, hr, hlen⟩ := hi
  obtain ⟨ds, hds, hl, hlt⟩ := hr.keeps_insert_at ht
  refine ⟨ds, hds, ?_⟩
  rw [hlt, hl, ← wrap32_insert cs.length _ hlen]
  simp only [List.length_eq_zero]

theorem Inv.remove_front {s t : State} {r : String} (hi : Inv s)
    (ht : list_remove_front s = .ok (r, t)) : Inv t := by
  obtain ⟨cs, hr, hlen⟩ := hi
  obtain ⟨ds, hds, hl, h1, hlt⟩ := hr.keeps_remove_front ht
  exact ⟨ds, hds, by rw [hlt]; exact wrap32_remove _ _ _ hlen hl h1⟩

theorem Inv.remove_back {s t : State} {r : String} (hi : Inv s)
    (ht : list_remove_back s = .ok (r, t)) : Inv t := by
  obtain ⟨cs, hr, hlen⟩ := hi
  obtain ⟨ds, hds, hl, h1, hlt⟩ := hr.keeps_remove_back ht
  exact ⟨ds, hds, by rw [hlt]; exact wrap32_remove _ _ _ hlen hl h1⟩

theorem Inv.remove_at {s t : State} {r : String} {idx : Int} (hi : Inv s)
    (ht : list_remove_at s idx = .ok (r, t)) : Inv t := by
  obtain ⟨cs, hr, hlen⟩ := hi
  obtain ⟨ds, hds, hl, h1, hlt⟩ := hr.keeps_remove_at ht
  exact ⟨ds, hds, by rw [hlt]; exact wrap32_remove _ _ _ hlen hl h1⟩

theorem list_create_rep : Rep list_create [] :=
  ⟨trivial, List.nodup_nil, rfl, rfl⟩

theorem Reachable.inv {s : State} (h : Reachable s) : Inv s := by
  induction h with
  | create => exact ⟨[], list_create_rep, rfl⟩
  | append s v t _ ht ih => exact ih.append ht
  | prepend s v t _ ht ih => exact ih.prepend ht
  | insert_at s v idx t _ ht ih => exact ih.insert_at ht
  | remove_at s idx r t _ ht ih => exact ih.remove_at ht
  | remove_front s r t _ ht ih => exact ih.remove_front ht
  | remove_back s r t _ ht ih => exact ih.remove_back ht

/-! ## Sequences of inserting calls -/

theorem Op.apply_spec {s : State} {cs : List (Nat × String)} (hr : Rep s cs)
    (hlen : s.list.length = wrap32 (max 1 (cs.length : Int))) (op : Op)
    (hok : op.index_ok s = true) :
    ∃ t ds, op.apply s = .ok t ∧ Rep t ds ∧
      t.list.length = wrap32 (max 1 (ds.length : Int)) ∧ ds.length = cs.length + 1 := by
  cases op with
  | append v =>
    obtain ⟨t, ht, hrt, hlt⟩ := list_append_rep hr v
    refine ⟨t, _, ht, hrt, ?_, by simp⟩
    rw [hlt, List.length_append, List.length_singleton, ← wrap32_insert cs.length _ hlen]
    simp only [List.length_eq_zero]
  | prepend v =>
    obtain ⟨t, ht, hrt, hlt⟩ := list_prepend_rep hr v
    refine ⟨t, _, ht, hrt, ?_, by simp⟩
    rw [hlt, List.length_cons, ← wrap32_insert cs.length _ hlen]
    simp only [List.length_eq_zero]
  | insert_at v idx =>
    simp only [Op.index_ok, Bool.and_eq_true, decide_eq_true_eq] at hok
    obtain ⟨t, ht⟩ := list_insert_at_total hr hlen v idx hok.1 hok.2
    obtain ⟨ds, hds, hl, hlt⟩ := hr.keeps_insert_at ht
    refine ⟨t, ds, ht, hds, ?_, hl⟩
    rw [hlt, hl, ← wrap32_insert cs.length _ hlen]
    simp only [List.length_eq_zero]

theorem run_spec {s : State} {cs : List (Nat × String)} (hr : Rep s cs)
    (hlen : s.list.length = wrap32 (max 1 (cs.length : Int))) (ops : List Op)
    (hok : indices_ok s ops = true) :
    ∃ t ds, run s ops = .ok t ∧ Rep t ds ∧
      t.list.length = wrap32 (max 1 (ds.length : Int)) ∧
      ds.length = cs.length + ops.length := by
  induction ops generalizing s cs with
  | nil => exact ⟨s, cs, rfl, hr, hlen, rfl⟩
  | cons op ops ih =>
    simp only [indices_ok, Bool.and_eq_true] at hok
    obtain ⟨t, ds, ht, hrt, hlt, hds⟩ := Op.apply_spec hr hlen op hok.1
    have hok2 := hok.2
    rw [ht] at hok2
    obtain ⟨u, es, hu, hru, hlu, hes⟩ := ih hrt hlt hok2
    refine ⟨u, es, ?_, hru, hlu, ?_⟩
    · simp only [run, ht]; exact hu
    · rw [hes, hds, List.length_cons]; omega

theorem indices_ok_initial {s : State} {pre suf : List Op}
    (hok : indices_ok s (pre ++ suf) = true) : indices_ok s pre = true := by
  induction pre generalizing s with
  | nil => rfl
  | cons op ops ih =>
    simp only [List.cons_append, indices_ok, Bool.and_eq_true] at hok ⊢
    refine ⟨hok.1, ?_⟩
    have h2 := hok.2
    cases hop : op.apply s with
    | error e => rfl
    | ok t =>
      rw [hop] at h2
      exact ih h2

theorem Reachable.cells {s : State} {vs : List String} (h : Reachable s)
    (hvs : front_to_back s = .ok vs) :
    ∃ cs, Rep s cs ∧ cs.map Prod.snd = vs ∧
      s.list.length = wrap32 (max 1 (cs.length : Int)) := by
  obtain ⟨cs, hr, hlen⟩ := h.inv
  have h1 := hr.front_to_back
  rw [hvs] at h1
  exact ⟨cs, hr, (Except.ok.inj h1).symm, hlen⟩

theorem Reachable.cells_fit {s : State} {vs : List String} (h : Reachable s)
    (hvs : front_to_back s = .ok vs) (hfit : vs.length < 2147483648) :
    ∃ cs, Rep s cs ∧ cs.map Prod.snd = vs ∧ s.list.length = max 1 (cs.length : Int) := by
  obtain ⟨cs, hr, hcs, hlen⟩ := h.cells hvs
  refine ⟨cs, hr, hcs, ?_⟩
  have hl : cs.length = vs.length := by rw [← hcs, List.length_map]
  rw [hlen, hl]
  exact wrap32_of_range (by unfold INT_MIN; omega) (by unfold INT_MAX; omega)

theorem run_reachable {s t : State} (ops : List Op) (h : Reachable s)
    (ht : run s ops = .ok t) : Reachable t := by
  induction ops generalizing s with
  | nil => simp only [run] at ht; cases ht; exact h
  | cons op ops ih =>
    simp only [run] at ht
    cases hop : op.apply s with
    | error e => rw [hop] at ht; cases ht
    | ok u =>
      rw [hop] at ht
      refine ih ?_ ht
      cases op with
      | append v => exact Reachable.append s v u h hop
      | prepend v => exact Reachable.prepend s v u h hop
      | insert_at v idx => exact Reachable.insert_at s v idx u h hop

theorem indices_ok_appends (s : State) (n : Nat) (v : String) :
    indices_ok s (List.replicate n (Op.append v)) = true := by
  induction n generalizing s with
  | zero => rfl
  | succ n ih =>
    rw [List.replicate_succ]
    simp only [indices_ok, Op.index_ok, Bool.true_and]
    cases (Op.append v).apply s with
    | error e => rfl
    | ok t => exact ih t

/-- After `n >= 1` calls of `list_append` on a fresh list the list has `n`
nodes and the `length` field holds `n` reduced to the range of `int`. -/
theorem appends_length (n : Nat) (v : String) (hn : 1 ≤ n) :
    ∃ t vs, run list_create (List.replicate n (Op.append v)) = .ok t ∧ Reachable t ∧
      front_to_back t = .ok vs ∧ vs.length = n ∧ t.list.length = wrap32 (n : Int) := by
  obtain ⟨t, ds, ht, hrt, hlt, hds⟩ :=
    run_spec list_create_rep rfl _ (indices_ok_appends list_create n v)
  rw [List.length_replicate, List.length_nil, Nat.zero_add] at hds
  refine ⟨t, ds.map Prod.snd, ht, run_reachable _ Reachable.create ht, hrt.front_to_back,
    by rw [List.length_map, hds], ?_⟩
  rw [hlt, hds]
  congr 1
  omega

/-! ## Round trips -/

theorem append_all_rep {s : State} {cs : List (Nat × String)} (hr : Rep s cs)
    (xs : List String) :
    ∃ t ds, append_all s xs = .ok t ∧ Rep t ds ∧ ds.map Prod.snd = cs.map Prod.snd ++ xs := by
  induction xs generalizing s cs with
  | nil => exact ⟨s, cs, rfl, hr, by simp⟩
  | cons x xs ih =>
    have key : ∃ t, list_append s x = .ok t ∧ Rep t (cs ++ [(s.heap.length, x)]) := by
      rcases List.eq_nil_or_concat cs with rfl | ⟨init, c, rfl⟩
      · obtain ⟨t, ht, hrt, -⟩ := list_append_nil hr x
        exact ⟨t, ht, hrt⟩
      · rw [List.concat_eq_append] at hr ⊢
        obtain ⟨t, ht, hrt, -⟩ := list_append_concat hr x
        exact ⟨t, ht, hrt⟩
    obtain ⟨t, ht, hrt⟩ := key
    obtain ⟨u, ds, hu, hru, hds⟩ := ih hrt
    refine ⟨u, ds, ?_, hru, ?_⟩
    · simp only [append_all, ht]; exact hu
    · rw [hds]; simp

theorem remove_front_n_rep {s : State} {cs : List (Nat × String)} (hr : Rep s cs)
    (n : Nat) (hn : n < cs.length) :
    ∃ t, remove_front_n s n = .ok ((cs.map Prod.snd).take n, t) ∧ Rep t (cs.drop n) := by
  induction n generalizing s cs with
  | zero => exact ⟨s, rfl, hr⟩
  | succ n ih =>
    match cs, hr, hn with
    | [], _, hn => simp at hn
    | [a], _, hn => simp at hn
    | a :: b :: cs, hr, hn =>
      obtain ⟨t, ht, hrt, -⟩ := list_remove_front_cons hr
      obtain ⟨u, hu, hru⟩ := ih hrt (by simpa using hn)
      refine ⟨u, ?_, by simpa using hru⟩
      simp only [remove_front_n, ht, hu]
      simp

theorem remove_front_n_all {s : State} {cs : List (Nat × String)} (hr : Rep s cs)
    (hne : cs ≠ []) : remove_front_n s cs.length = .error .invalid_access := by
  obtain ⟨t, ht, hrt⟩ := remove_front_n_rep hr (cs.length - 1)
    (Nat.sub_lt (List.length_pos.2 hne) Nat.one_pos)
  have hl : (cs.drop (cs.length - 1)).length = 1 := by
    have := List.length_pos.2 hne
    simp only [List.length_drop]; omega
  obtain ⟨a, ha⟩ := List.length_eq_one.1 hl
  rw [ha] at hrt
  have hstep : ∀ (m : Nat) (u : State) (rs : List String) (w : State),
      remove_front_n u m = .ok (rs, w) → list_remove_front w = .error .invalid_access →
      remove_front_n u (m + 1) = .error .invalid_access := by
    intro m
    induction m with
    | zero =>
      intro u rs w h1 h2
      simp only [remove_front_n] at h1
      cases h1
      simp [remove_front_n, h2]
    | succ m ihm =>
      intro u rs w h1 h2
      rw [remove_front_n] at h1
      rw [remove_front_n]
      cases h3 : list_remove_front u with
      | error e => rw [h3] at h1; cases h1
      | ok p =>
        obtain ⟨r, v⟩ := p
        rw [h3] at h1
        simp only at h1 ⊢
        cases h4 : remove_front_n v m with
        | error e => rw [h4] at h1; cases h1
        | ok q =>
          obtain ⟨rs2, w2⟩ := q
          rw [h4] at h1
          simp only [Except.ok.injEq, Prod.mk.injEq] at h1
          obtain ⟨-, rfl⟩ := h1
          rw [ihm v rs2 w2 h4 h2]
  have := hstep _ _ _ _ ht (list_remove_front_single hrt)
  rwa [Nat.sub_add_cancel (List.length_pos.2 hne)] at this

theorem remove_back_n_rep {s : State} {cs : List (Nat × String)} (hr : Rep s cs)
    (n : Nat) (hn : n < cs.length) :
    ∃ t, remove_back_n s n = .ok ((cs.map Prod.snd).reverse.take n, t) ∧
      Rep t (cs.take (cs.length - n)) := by
  induction n generalizing s cs with
  | zero => exact ⟨s, rfl, by simpa using hr⟩
  | succ n ih =>
    obtain ⟨pre, a, b, rfl⟩ := split_last2 cs (by omega)
    obtain ⟨t, ht, hrt, -⟩ := list_remove_back_concat hr
    have hn2 : n < (pre ++ [a]).length := by
      simp only [List.length_append, List.length_cons, List.length_nil] at hn ⊢
      omega
    obtain ⟨u, hu, hru⟩ := ih hrt hn2
    refine ⟨u, ?_, ?_⟩
    · simp only [remove_back_n, ht, hu]
      simp
    · have e1 : pre ++ [a, b] = (pre ++ [a]) ++ [b] := by simp
      have e2 : (pre ++ [a, b]).length - (n + 1) = (pre ++ [a]).length - n := by
        simp only [List.length_append, List.length_cons, List.length_nil]
        omega
      rw [e2, e1, List.take_append_of_le_length (Nat.sub_le _ _)]
      exact hru

theorem remove_back_n_all {s : State} {cs : List (Nat × String)} (hr : Rep s cs)
    (hne : cs ≠ []) : remove_back_n s cs.length = .error .invalid_access := by
  obtain ⟨t, ht, hrt⟩ := remove_back_n_rep hr (cs.length - 1)
    (Nat.sub_lt (List.length_pos.2 hne) Nat.one_pos)
  have hl : (cs.take (cs.length - (cs.length - 1))).length = 1 := by
    have := List.length_pos.2 hne
    simp only [List.length_take]; omega
  obtain ⟨a, ha⟩ := List.length_eq_one.1 hl
  rw [ha] at hrt
  have hstep : ∀ (m : Nat) (u : State) (rs : List String) (w : State),
      remove_back_n u m = .ok (rs, w) → list_remove_back w = .error .invalid_access →
      remove_back_n u (m + 1) = .error .invalid_access := by
    intro m
    induction m with
    | zero =>
      intro u rs w h1 h2
      simp only [remove_back_n] at h1
      cases h1
      simp [remove_back_n, h2]
    | succ m ihm =>
      intro u rs w h1 h2
      rw [remove_back_n] at h1
      rw [remove_back_n]
      cases h3 : list_remove_back u with
      | error e => rw [h3] at h1; cases h1
      | ok p =>
        obtain ⟨r, v⟩ := p
        rw [h3] at h1
        simp only at h1 ⊢
        cases h4 : remove_back_n v m with
        | error e => rw [h4] at h1; cases h1
        | ok q =>
          obtain ⟨rs2, w2⟩ := q
          rw [h4] at h1
          simp only [Except.ok.injEq, Prod.mk.injEq] at h1
          obtain ⟨-, rfl⟩ := h1
          rw [ihm v rs2 w2 h4 h2]
  have := hstep _ _ _ _ ht (list_remove_back_single hrt)
  rwa [Nat.sub_add_cancel (List.length_pos.2 hne)] at this

/-- After appending a non-empty sequence of values to a fresh list, the last
of as many `list_remove_front` calls faults; the calls before it return the
values in insertion order. -/
theorem round_trip_front (x : String) (xs : List String) :
    ∃ s, append_all list_create (x :: xs) = .ok s ∧
      (∃ t, remove_front_n s xs.length = .ok ((x :: xs).take xs.length, t)) ∧
      remove_front_n s (xs.length + 1) = .error .invalid_access := by
  obtain ⟨s, ds, hs, hrs, hds⟩ := append_all_rep list_create_rep (x :: xs)
  simp only [List.map_nil, List.nil_append] at hds
  have hlen : ds.length = xs.length + 1 := by
    have := congrArg List.length hds
    simpa using this
  have hne : ds ≠ [] := by
    intro h; rw [h] at hlen; simp at hlen
  obtain ⟨t, ht, -⟩ := remove_front_n_rep hrs xs.length (by omega)
  rw [hds] at ht
  refine ⟨s, hs, ⟨t, ht⟩, ?_⟩
  rw [← hlen]
  exact remove_front_n_all hrs hne

/-- After appending a non-empty sequence of values to a fresh list, the last
of as many `list_remove_back` calls faults; the calls before it return the
values in reverse insertion order. -/
theorem round_trip_back (x : String) (xs : List String) :
    ∃ s, append_all list_create (x :: xs) = .ok s ∧
      (∃ t, remove_back_n s xs.length = .ok ((x :: xs).reverse.take xs.length, t)) ∧
      remove_back_n s (xs.length + 1) = .error .invalid_access := by
  obtain ⟨s, ds, hs, hrs, hds⟩ := append_all_rep list_create_rep (x :: xs)
  simp only [List.map_nil, List.nil_append] at hds
  have hlen : ds.length = xs.length + 1 := by
    have := congrArg List.length hds
    simpa using this
  have hne : ds ≠ [] := by
    intro h; rw [h] at hlen; simp at hlen
  obtain ⟨t, ht, -⟩ := remove_back_n_rep hrs xs.length (by omega)
  rw [hds] at ht
  refine ⟨s, hs, ⟨t, ht⟩, ?_⟩
  rw [← hlen]
  exact remove_back_n_all hrs hne

/-- On every single-element list built by the public operations,
`list_remove_at(list, 0)` faults in `list_remove_back`. -/
theorem remove_at_single_faults (s : State) (v : String) (hreach : Reachable s)
    (hvs : front_to_back s = .ok [v]) : list_remove_at s 0 = .error .invalid_access := by
  obtain ⟨cs, hr, hcs, hlen⟩ := hreach.cells_fit hvs (by simp)
  have hl : cs.length = 1 := by
    have := congrArg List.length hcs
    simpa using this
  obtain ⟨a, rfl⟩ := List.length_eq_one.1 hl
  have hemp := list_is_empty_rep hr
  have h1 : s.list.length = 1 := by simpa using hlen
  have ha : (decide ((0 : Int) ≥ 0) && decide ((0 : Int) < s.list.length)) = true := by
    simp [h1]
  have hi : (0 : Int) = int_pred s.list.length := by
    rw [int_pred_of_pos (by omega)]; omega
  simp only [list_remove_at, ha, hemp, assert, if_true, bind, Except.bind, if_pos hi]
  simpa using list_remove_back_single hr

/-! ## Claims -/

/-- C1, as the code has it: for every non-empty sequence of fewer than 2^31
`list_append`, `list_prepend` and `list_insert_at` calls on a list returned
by `list_create`, each insert index being within `0 <= idx <= length`, every
call returns, and after each call (that is, after every non-empty initial
part `pre` of the sequence) the `length` field equals the number of nodes met
by following `next` from `first`. -/
theorem C1_length_counts_nodes (ops pre : List Op) (hne : pre ≠ []) (hpre : pre <+: ops)
    (hok : indices_ok list_create ops = true) (hfit : ops.length < 2147483648) :
    ∃ t vs, run list_create pre = .ok t ∧ front_to_back t = .ok vs ∧
      t.list.length = (vs.length : Int) := by
  obtain ⟨suf, rfl⟩ := hpre
  obtain ⟨t, ds, ht, hrt, hlt, hds⟩ :=
    run_spec list_create_rep rfl pre (indices_ok_initial hok)
  refine ⟨t, ds.map Prod.snd, ht, hrt.front_to_back, ?_⟩
  have : 0 < pre.length := List.length_pos.2 hne
  rw [List.length_append] at hfit
  rw [hlt, List.length_map, hds, List.length_nil, Nat.zero_add]
  rw [wrap32_of_range (by unfold INT_MIN; omega) (by unfold INT_MAX; omega)]
  omega

/-- Witness for C1 on the calls append "a", insert "x" at 1, prepend "b",
observed after the second call. -/
theorem C1_length_counts_nodes_witness :
    ∃ t vs, run list_create [Op.append "a", Op.insert_at "x" 1] = .ok t ∧
      front_to_back t = .ok vs ∧ t.list.length = (vs.length : Int) :=
  C1_length_counts_nodes [Op.append "a", Op.insert_at "x" 1, Op.prepend "b"]
    [Op.append "a", Op.insert_at "x" 1] (by decide) ⟨[Op.prepend "b"], rfl⟩ (by decide)
    (by decide)

/-- C1 as stated, for every finite sequence, fails on the code: after 2^31
calls of `list_append` on a fresh list every call has returned and the list
has 2^31 nodes, but `++list->length` has wrapped and the `length` field holds
`INT_MIN`. -/
theorem C1_length_wraps_after_two_pow_31_appends :
    indices_ok list_create (List.replicate 2147483648 (Op.append "a")) = true ∧
      ∃ t vs, run list_create (List.replicate 2147483648 (Op.append "a")) = .ok t ∧
        front_to_back t = .ok vs ∧ (vs.length : Int) = 2147483648 ∧
        t.list.length = -2147483648 ∧ t.list.length ≠ (vs.length : Int) := by
  refine ⟨indices_ok_appends _ _ _, ?_⟩
  obtain ⟨t, vs, ht, -, hvs, hl, hlen⟩ := appends_length 2147483648 "a" (by decide)
  have h1 : t.list.length = -2147483648 := by
    rw [hlen]; unfold wrap32; norm_num
  refine ⟨t, vs, ht, hvs, by rw [hl]; norm_num, h1, ?_⟩
  rw [h1, hl]; norm_num

/-- C2: for every sequence of `list_append`, `list_prepend` and
`list_insert_at` calls on a list returned by `list_create`, each insert index
being within `0 <= idx <= length`, after each call (and before the first) the
values read by following `next` from `first` are the reverse of the values
read by following `prev` from `last`. -/
theorem C2_traversals_mirror (ops pre : List Op) (hpre : pre <+: ops)
    (hok : indices_ok list_create ops = true) :
    ∃ t fwd bwd, run list_create pre = .ok t ∧ front_to_back t = .ok fwd ∧
      back_to_front t = .ok bwd ∧ fwd = bwd.reverse := by
  obtain ⟨suf, rfl⟩ := hpre
  obtain ⟨t, ds, ht, hrt, -, -⟩ :=
    run_spec list_create_rep rfl pre (indices_ok_initial hok)
  exact ⟨t, _, _, ht, hrt.front_to_back, hrt.back_to_front, by simp⟩

/-- Witness for C2 on the calls append "a", insert "x" at 1, prepend "b",
observed after all three. -/
theorem C2_traversals_mirror_witness :
    ∃ t fwd bwd,
      run list_create [Op.append "a", Op.insert_at "x" 1, Op.prepend "b"] = .ok t ∧
      front_to_back t = .ok fwd ∧ back_to_front t = .ok bwd ∧ fwd = bwd.reverse :=
  C2_traversals_mirror [Op.append "a", Op.insert_at "x" 1, Op.prepend "b"]
    [Op.append "a", Op.insert_at "x" 1, Op.prepend "b"] ⟨[], rfl⟩ (by decide)

/-- C4: on every well-formed list, with cells `cs` front to back,
`list_append` returns and leaves the front-to-back values `values ++ [v]`; the
new node holds `v`, it is the last node (`last` points at it and its `next`
is `NULL`), the list is again well formed, and if the list was empty `first`
and `last` both point at the new node. -/
theorem C4_append_last (s : State) (cs : List (Nat × String)) (v : String) (hr : Rep s cs) :
    ∃ t, list_append s v = .ok t ∧
      front_to_back t = .ok (cs.map Prod.snd ++ [v]) ∧
      load s.heap (node_create s.heap v).2 = none ∧
      Rep t (cs ++ [((node_create s.heap v).2, v)]) ∧
      t.list.last = some (node_create s.heap v).2 ∧
      (cs = [] → t.list.first = some (node_create s.heap v).2 ∧
        t.list.last = some (node_create s.heap v).2) := by
  have key : ∃ t, list_append s v = .ok t ∧ Rep t (cs ++ [(s.heap.length, v)]) := by
    rcases List.eq_nil_or_concat cs with rfl | ⟨init, c, rfl⟩
    · obtain ⟨t, ht, hrt, -⟩ := list_append_nil hr v
      exact ⟨t, ht, hrt⟩
    · rw [List.concat_eq_append] at hr ⊢
      obtain ⟨t, ht, hrt, -⟩ := list_append_concat hr v
      exact ⟨t, ht, hrt⟩
  obtain ⟨t, ht, hrt⟩ := key
  have hlast : t.list.last = some s.heap.length := by
    rw [hrt.2.2.2, lastAddr_append]; rfl
  refine ⟨t, ht, by simpa using hrt.front_to_back, load_length _, hrt, hlast, ?_⟩
  intro he
  subst he
  exact ⟨hrt.2.2.1, hlast⟩

/-- Witness for C4: appending to the list holding "a". -/
theorem C4_append_last_witness :
    ∃ t, list_append
        { heap := [some { data := "a", next := none, prev := none }],
          list := { first := some 0, last := some 0, length := 1 } } "b" = .ok t ∧
      front_to_back t = .ok (["a"] ++ ["b"]) ∧
      load [some { data := "a", next := none, prev := none }] 1 = none ∧
      Rep t ([(0, "a")] ++ [(1, "b")]) ∧
      t.list.last = some 1 ∧
      ([(0, "a")] = ([] : List (Nat × String)) → t.list.first = some 1 ∧ t.list.last = some 1) :=
  C4_append_last _ [(0, "a")] "b" ⟨⟨rfl, trivial⟩, by decide, rfl, rfl⟩

/-- C5: on every well-formed list, with cells `cs` front to back,
`list_prepend` returns and leaves the front-to-back values `[v] ++ values`;
the new node holds `v`, it is the first node (`first` points at it and its
`prev` is `NULL`), the list is again well formed, and if the list was empty
`first` and `last` both point at the new node. -/
theorem C5_prepend_first (s : State) (cs : List (Nat × String)) (v : String) (hr : Rep s cs) :
    ∃ t, list_prepend s v = .ok t ∧
      front_to_back t = .ok ([v] ++ cs.map Prod.snd) ∧
      load s.heap (node_create s.heap v).2 = none ∧
      Rep t ([((node_create s.heap v).2, v)] ++ cs) ∧
      t.list.first = some (node_create s.heap v).2 ∧
      (cs = [] → t.list.first = some (node_create s.heap v).2 ∧
        t.list.last = some (node_create s.heap v).2) := by
  have key : ∃ t, list_prepend s v = .ok t ∧ Rep t ((s.heap.length, v) :: cs) := by
    cases cs with
    | nil =>
      obtain ⟨t, ht, hrt, -⟩ := list_prepend_nil hr v
      exact ⟨t, ht, hrt⟩
    | cons c cs =>
      obtain ⟨t, ht, hrt, -⟩ := list_prepend_cons hr v
      exact ⟨t, ht, hrt⟩
  obtain ⟨t, ht, hrt⟩ := key
  refine ⟨t, ht, by simpa using hrt.front_to_back, load_length _, hrt, hrt.2.2.1, ?_⟩
  intro he
  subst he
  exact ⟨hrt.2.2.1, hrt.2.2.2⟩

/-- Witness for C5: prepending to the list holding "a". -/
theorem C5_prepend_first_witness :
    ∃ t, list_prepend
        { heap := [some { data := "a", next := none, prev := none }],
          list := { first := some 0, last := some 0, length := 1 } } "b" = .ok t ∧
      front_to_back t = .ok (["b"] ++ ["a"]) ∧
      load [some { data := "a", next := none, prev := none }] 1 = none ∧
      Rep t ([(1, "b")] ++ [(0, "a")]) ∧
      t.list.first = some 1 ∧
      ([(0, "a")] = ([] : List (Nat × String)) → t.list.first = some 1 ∧ t.list.last = some 1) :=
  C5_prepend_first _ [(0, "a")] "b" ⟨⟨rfl, trivial⟩, by decide, rfl, rfl⟩

/-- C7 fails on the code: after `list_create` and one `list_append`, the
single `list_remove_front` call does not return a value: it reads
`p->next->prev` with `p->next == NULL`. -/
theorem C7_remove_front_last_element_faults :
    ∃ s, append_all list_create ["x1"] = .ok s ∧
      front_to_back s = .ok ["x1"] ∧
      list_remove_front s = .error .invalid_access ∧
      remove_front_n s 1 = .error .invalid_access :=
  ⟨_, rfl, rfl, rfl, rfl⟩

/-- C8 fails on the code: after `list_create` and one `list_append`, the
single `list_remove_back` call does not return a value: it writes
`p->prev->next` with `p->prev == NULL`. -/
theorem C8_remove_back_last_element_faults :
    ∃ s, append_all list_create ["x1"] = .ok s ∧
      front_to_back s = .ok ["x1"] ∧
      list_remove_back s = .error .invalid_access ∧
      remove_back_n s 1 = .error .invalid_access :=
  ⟨_, rfl, rfl, rfl, rfl⟩

/-- C9 fails on the code: on the single-element list built by one
`list_prepend`, `list_remove_at(list, 0)` goes to `list_remove_back` and does
not return. -/
theorem C9_remove_at_single_faults :
    ∃ s, list_prepend list_create "v" = .ok s ∧
      front_to_back s = .ok ["v"] ∧
      list_remove_at s 0 = .error .invalid_access :=
  ⟨_, rfl, rfl, rfl⟩

/-- C10 fails on the code: `list_create` returns `first` and `last` null but
sets the `length` field to 1, not 0. -/
theorem C10_list_create_length_is_one :
    list_create.list.first = none ∧ list_create.list.last = none ∧
      list_create.list.length = 1 ∧ list_create.list.length ≠ 0 :=
  ⟨rfl, rfl, rfl, by decide⟩

/-! ## Queries: emptiness and peeks -/

theorem Rep.ends_null_together {s : State} {cs : List (Nat × String)} (hr : Rep s cs) :
    s.list.first = none ↔ s.list.last = none := by
  obtain ⟨-, -, hf, hl⟩ := hr
  cases cs with
  | nil => simp [hf, hl]
  | cons c cs =>
    have h2 := lastAddr_ne_none none (List.cons_ne_nil c cs)
    simp only [lastAddr_cons] at h2
    simp [hf, hl, h2]

theorem Reachable.first_null_iff {s : State} (h : Reachable s) :
    s.list.first = none ↔ s.list.last = none := by
  obtain ⟨cs, hr, -⟩ := h.inv
  exact hr.ends_null_together

theorem front_to_back_nil_iff (s : State) :
    front_to_back s = .ok [] ↔ s.list.first = none := by
  unfold front_to_back
  cases hf : s.list.first with
  | none => simp [collect_next]
  | some a =>
    simp only [collect_next, bind, Except.bind, pure, Except.pure]
    cases deref s.heap (some a) with
    | error e => simp
    | ok n =>
      cases hc : collect_next s.heap s.heap.length n.next with
      | error e => simp [hc]
      | ok vs => simp [hc]

/-- C11: on every list in which `first` is null iff `last` is null,
`list_is_empty` returns true iff `first` is null, iff the list has no element
(the walk from `first` reads nothing), and the summed form
`(first == NULL) + (last == NULL)` agrees with the single test
`first == NULL`. -/
theorem C11_is_empty_iff_no_element (s : State)
    (h : s.list.first = none ↔ s.list.last = none) :
    (list_is_empty s = true ↔ s.list.first = none) ∧
      (list_is_empty s = true ↔ front_to_back s = .ok []) ∧
      list_is_empty s = decide (s.list.first = none) := by
  have key : list_is_empty s = decide (s.list.first = none) := by
    by_cases hf : s.list.first = none
    · simp [list_is_empty, hf]
    · have hl : s.list.last ≠ none := fun hl => hf (h.2 hl)
      simp [list_is_empty, hf, hl]
  refine ⟨by rw [key]; simp, ?_, key⟩
  rw [key, front_to_back_nil_iff]; simp

/-- Witness for C11 on the reachable one-element list holding "a". -/
theorem C11_is_empty_iff_no_element_witness :
    (list_is_empty
        { heap := [some { data := "a", next := none, prev := none }],
          list := { first := some 0, last := some 0, length := 1 } } = true
        ↔ (some 0 : Option Nat) = none) ∧
      (list_is_empty
        { heap := [some { data := "a", next := none, prev := none }],
          list := { first := some 0, last := some 0, length := 1 } } = true
        ↔ front_to_back
            { heap := [some { data := "a", next := none, prev := none }],
              list := { first := some 0, last := some 0, length := 1 } } = .ok []) ∧
      list_is_empty
        { heap := [some { data := "a", next := none, prev := none }],
          list := { first := some 0, last := some 0, length := 1 } }
        = decide ((some 0 : Option Nat) = none) :=
  C11_is_empty_iff_no_element _
    (Reachable.first_null_iff (Reachable.append _ "a" _ Reachable.create rfl))

theorem list_peek_front_cons {s : State} {c : Nat × String} {cs : List (Nat × String)}
    (hr : Rep s (c :: cs)) : list_peek_front s = .ok (c.2, s) := by
  have hemp := list_is_empty_rep hr
  obtain ⟨hs, -, hf, -⟩ := hr
  obtain ⟨hs1, -⟩ := hs
  simp only [hdAddr_cons] at hf
  simp [list_peek_front, hemp, assert, deref, hf, hs1, bind, Except.bind, pure, Except.pure]

theorem list_peek_back_concat {s : State} {c : Nat × String} {cs : List (Nat × String)}
    (hr : Rep s (cs ++ [c])) : list_peek_back s = .ok (c.2, s) := by
  have hemp := list_is_empty_rep hr
  obtain ⟨hs, -, -, hl⟩ := hr
  rw [seg_append] at hs
  obtain ⟨-, hs2, -⟩ := hs
  simp only [lastAddr_append, lastAddr_cons, lastAddr_nil] at hl
  simp [list_peek_back, hemp, assert, deref, hl, hs2, bind, Except.bind, pure, Except.pure]

/-- C12: on every non-empty well-formed list, `list_peek_front` returns the
first value and `list_peek_back` the last one, each leaves the whole state
(header, links and values) as it was, and so does every sequence of peeks;
the length and both traversals are therefore unchanged. -/
theorem C12_peeks_read_only (s : State) (cs : List (Nat × String)) (hr : Rep s cs)
    (hne : cs ≠ []) :
    ∃ v0 vl, (cs.map Prod.snd).head? = some v0 ∧ (cs.map Prod.snd).getLast? = some vl ∧
      list_peek_front s = .ok (v0, s) ∧ list_peek_back s = .ok (vl, s) ∧
      ∀ bs : List Bool, ∃ t, peeks s bs = .ok (bs.map (fun b => if b then v0 else vl), t) ∧
        t = s ∧ t.list.length = s.list.length ∧
        front_to_back t = front_to_back s ∧ back_to_front t = back_to_front s := by
  obtain ⟨c, r, hc⟩ := List.exists_cons_of_ne_nil hne
  rcases List.eq_nil_or_concat cs with h0 | ⟨init, d, hd⟩
  · exact absurd h0 hne
  rw [List.concat_eq_append] at hd
  have hpf : list_peek_front s = .ok (c.2, s) := list_peek_front_cons (hc ▸ hr)
  have hpb : list_peek_back s = .ok (d.2, s) := list_peek_back_concat (hd ▸ hr)
  refine ⟨c.2, d.2, by rw [hc]; rfl, by rw [hd]; simp, hpf, hpb, ?_⟩
  intro bs
  refine ⟨s, ?_, rfl, rfl, rfl, rfl⟩
  induction bs with
  | nil => rfl
  | cons b bs ih =>
    cases b with
    | true => simp [peeks, hpf, ih]
    | false => simp [peeks, hpb, ih]

/-- Witness for C12 on the list holding "a", "b". -/
theorem C12_peeks_read_only_witness :
    ∃ v0 vl, (([(0, "a"), (1, "b")] : List (Nat × String)).map Prod.snd).head? = some v0 ∧
      (([(0, "a"), (1, "b")] : List (Nat × String)).map Prod.snd).getLast? = some vl ∧
      list_peek_front
        { heap := [some { data := "a", next := some 1, prev := none },
                   some { data := "b", next := none, prev := some 0 }],
          list := { first := some 0, last := some 1, length := 2 } }
        = .ok (v0, { heap := [some { data := "a", next := some 1, prev := none },
                              some { data := "b", next := none, prev := some 0 }],
                     list := { first := some 0, last := some 1, length := 2 } }) ∧
      list_peek_back
        { heap := [some { data := "a", next := some 1, prev := none },
                   some { data := "b", next := none, prev := some 0 }],
          list := { first := some 0, last := some 1, length := 2 } }
        = .ok (vl, { heap := [some { data := "a", next := some 1, prev := none },
                              some { data := "b", next := none, prev := some 0 }],
                     list := { first := some 0, last := some 1, length := 2 } }) := by
  obtain ⟨v0, vl, h1, h2, h3, h4, -⟩ :=
    C12_peeks_read_only
      { heap := [some { data := "a", next := some 1, prev := none },
                 some { data := "b", next := none, prev := some 0 }],
        list := { first := some 0, last := some 1, length := 2 } }
      [(0, "a"), (1, "b")] ⟨⟨rfl, rfl, trivial⟩, by decide, rfl, rfl⟩ (by decide)
  exact ⟨v0, vl, h1, h2, h3, h4⟩

/-! ## The iterator -/

theorem iter_drain_forward {h : Heap} {prv : Option Nat} {c : Nat × String}
    {cs : List (Nat × String)} {fuel : Nat} (hs : seg h prv none (c :: cs))
    (hf : cs.length < fuel) :
    iter_drain h fuel { cur := some c.1, dir := ITER_FRONT_TO_BACK }
      = .ok ((c :: cs).map Prod.snd, List.replicate cs.length true ++ [false], none) := by
  induction cs generalizing c prv fuel with
  | nil =>
    obtain ⟨h1, -⟩ := hs
    cases fuel with
    | zero => simp at hf
    | succ f =>
      simp only [hdAddr_nil] at h1
      simp [iter_drain, iter_current, iter_next, assert, deref, h1, bind, Except.bind, pure,
        Except.pure]
  | cons d ds ih =>
    obtain ⟨h1, h2⟩ := hs
    cases fuel with
    | zero => simp at hf
    | succ f =>
      have hf2 : ds.length < f := by simpa using hf
      simp only [hdAddr_cons] at h1
      simp [iter_drain, iter_current, iter_next, assert, deref, h1, ih h2 hf2, bind, Except.bind,
        pure, Except.pure, List.replicate_succ]

theorem iter_drain_backward {h : Heap} {nxt : Option Nat} {c : Nat × String}
    {cs : List (Nat × String)} {fuel : Nat} (hs : seg h none nxt (cs ++ [c]))
    (hf : cs.length < fuel) :
    iter_drain h fuel { cur := some c.1, dir := ITER_BACK_TO_FRONT }
      = .ok (((cs ++ [c]).map Prod.snd).reverse, List.replicate cs.length true ++ [false],
          none) := by
  induction cs using List.reverseRecOn generalizing c nxt fuel with
  | nil =>
    obtain ⟨h1, -⟩ := hs
    cases fuel with
    | zero => simp at hf
    | succ f =>
      simp [iter_drain, iter_current, iter_next, assert, deref, h1, bind, Except.bind, pure,
        Except.pure, ITER_BACK_TO_FRONT, ITER_FRONT_TO_BACK]
  | append_singleton ds d ih =>
    rw [seg_append] at hs
    obtain ⟨h1, h2, -⟩ := hs
    cases fuel with
    | zero => simp at hf
    | succ f =>
      have hf2 : ds.length < f := by simpa using hf
      simp only [hdAddr_cons, lastAddr_append, lastAddr_cons, lastAddr_nil] at h1 h2
      have := ih h1 hf2
      simp only [ITER_BACK_TO_FRONT] at this
      simp [iter_drain, iter_current, iter_next, assert, deref, h2, this, bind, Except.bind,
        pure, Except.pure, List.replicate_succ, ITER_BACK_TO_FRONT, ITER_FRONT_TO_BACK]

/-- C13: on every non-empty well-formed list with `n` cells and in each of
the two directions, `iter_get` returns an iterator on the first (respectively
last) node, whose `iter_current` is the first (last) value; a traversal reads
with `iter_current` the values front to back (back to front), each once, the
first `n - 1` calls of `iter_next` return true, and the `n`-th returns false
and leaves the iterator released. -/
theorem C13_iterator_traversal (s : State) (cs : List (Nat × String)) (hr : Rep s cs)
    (hne : cs ≠ []) :
    (∃ e v0, iter_get s ITER_FRONT_TO_BACK = .ok e ∧ e.cur = s.list.first ∧
      (cs.map Prod.snd).head? = some v0 ∧ iter_current s.heap e = .ok v0 ∧
      iter_drain s.heap cs.length e
        = .ok (cs.map Prod.snd, List.replicate (cs.length - 1) true ++ [false], none)) ∧
    (∃ e vl, iter_get s ITER_BACK_TO_FRONT = .ok e ∧ e.cur = s.list.last ∧
      (cs.map Prod.snd).getLast? = some vl ∧ iter_current s.heap e = .ok vl ∧
      iter_drain s.heap cs.length e
        = .ok ((cs.map Prod.snd).reverse, List.replicate (cs.length - 1) true ++ [false],
            none)) := by
  have hemp := list_is_empty_rep hr
  simp only [hne, decide_False] at hemp
  obtain ⟨hs, -, hf, hl⟩ := hr
  constructor
  · obtain ⟨c, r, rfl⟩ := List.exists_cons_of_ne_nil hne
    simp only [hdAddr_cons] at hf
    refine ⟨{ cur := some c.1, dir := ITER_FRONT_TO_BACK }, c.2, ?_, hf.symm, rfl, ?_, ?_⟩
    · simp [iter_get, hemp, assert, hf, bind, Except.bind, pure, Except.pure]
    · simp [iter_current, deref, hs.1, bind, Except.bind, pure, Except.pure]
    · simpa using iter_drain_forward hs (Nat.lt_succ_self r.length)
  · rcases List.eq_nil_or_concat cs with h0 | ⟨init, d, rfl⟩
    · exact absurd h0 hne
    rw [List.concat_eq_append] at hs hl ⊢
    simp only [lastAddr_append, lastAddr_cons, lastAddr_nil] at hl
    have hd := ((seg_append _ _ _ _ _).1 hs).2.1
    refine ⟨{ cur := some d.1, dir := ITER_BACK_TO_FRONT }, d.2, ?_, hl.symm, by simp, ?_, ?_⟩
    · simp [iter_get, hemp, assert, hl, bind, Except.bind, pure, Except.pure,
        ITER_BACK_TO_FRONT, ITER_FRONT_TO_BACK]
    · simp [iter_current, deref, hd, bind, Except.bind, pure, Except.pure]
    · simpa using iter_drain_backward hs (Nat.lt_succ_self init.length)

/-- Witness for C13 on the list holding "p", "q". -/
theorem C13_iterator_traversal_witness :
    (∃ e, iter_get
        { heap := [some { data := "p", next := some 1, prev := none },
                   some { data := "q", next := none, prev := some 0 }],
          list := { first := some 0, last := some 1, length := 2 } } ITER_FRONT_TO_BACK = .ok e ∧
      iter_current [some { data := "p", next := some 1, prev := none },
                    some { data := "q", next := none, prev := some 0 }] e = .ok "p" ∧
      iter_drain [some { data := "p", next := some 1, prev := none },
                  some { data := "q", next := none, prev := some 0 }] 2 e
        = .ok (["p", "q"], [true, false], none)) := by
  obtain ⟨⟨e, v0, h1, -, h2, h3, h4⟩, -⟩ :=
    C13_iterator_traversal
      { heap := [some { data := "p", next := some 1, prev := none },
                 some { data := "q", next := none, prev := some 0 }],
        list := { first := some 0, last := some 1, length := 2 } }
      [(0, "p"), (1, "q")] ⟨⟨rfl, rfl, trivial⟩, by decide, rfl, rfl⟩ (by decide)
  have hv : v0 = "p" := (Option.some.inj h2).symm
  subst hv
  exact ⟨e, h1, h3, h4⟩

/-! ## Precondition checks -/

theorem list_is_empty_of_null {s : State} (hf : s.list.first = none) :
    list_is_empty s = true := by
  simp [list_is_empty, hf]

theorem Exec.bind_apply {α β : Type} (m : Exec α) (f : α → Exec β) (s : State) :
    (m >>= f) s = match m s with
      | (.ok a, t) => f a t
      | (.error e, t) => (.error e, t) := rfl

theorem Exec.pure_apply {α : Type} (a : α) (s : State) :
    (pure a : Exec α) s = (.ok a, s) := rfl

/-- What the caller sees of the statement-by-statement `list_remove_front`
is `list_remove_front`. -/
theorem list_remove_front_exec_result (s : State) :
    Exec.result (list_remove_front_exec s) = list_remove_front s := by
  unfold list_remove_front_exec list_remove_front
  simp only [Exec.bind_apply, Exec.state, Exec.check, Exec.read, Exec.put_list, Exec.put_heap,
    Exec.pure_apply, bind, Except.bind, pure, Except.pure]
  cases h1 : assert (list_is_empty s == false) with
  | error e => simp [Exec.result]
  | ok u =>
    cases h2 : deref s.heap s.list.first with
    | error e => simp [Exec.result]
    | ok pn =>
      cases h3 : set_prev s.heap pn.next none with
      | error e => simp [Exec.result, h3]
      | ok h =>
        cases h4 : free h s.list.first with
        | error e => simp [Exec.result, h3, h4]
        | ok k => simp [Exec.result, h3, h4]

/-- What the caller sees of the statement-by-statement `list_remove_back` is
`list_remove_back`. -/
theorem list_remove_back_exec_result (s : State) :
    Exec.result (list_remove_back_exec s) = list_remove_back s := by
  unfold list_remove_back_exec list_remove_back
  simp only [Exec.bind_apply, Exec.state, Exec.check, Exec.read, Exec.put_list, Exec.put_heap,
    Exec.pure_apply, bind, Except.bind, pure, Except.pure]
  cases h1 : assert (list_is_empty s == false) with
  | error e => simp [Exec.result]
  | ok u =>
    cases h2 : deref s.heap s.list.last with
    | error e => simp [Exec.result]
    | ok pn =>
      cases h3 : set_next s.heap pn.prev none with
      | error e => simp [Exec.result, h3]
      | ok h =>
        cases h4 : free h s.list.last with
        | error e => simp [Exec.result, h3, h4]
        | ok k => simp [Exec.result, h3, h4]

/-- What the caller sees of the statement-by-statement `list_remove_at` is
`list_remove_at`. -/
theorem list_remove_at_exec_result (s : State) (idx : Int) :
    Exec.result (list_remove_at_exec idx s) = list_remove_at s idx := by
  unfold list_remove_at_exec list_remove_at
  simp only [Exec.bind_apply, Exec.state, Exec.check, bind, Except.bind]
  cases h1 : assert (decide (idx ≥ 0) && decide (idx < s.list.length)) with
  | error e => simp [Exec.result]
  | ok u =>
    cases h2 : assert (list_is_empty s == false) with
    | error e => simp [Exec.result]
    | ok w =>
      simp only []
      split
      · exact list_remove_back_exec_result s
      · split
        · exact list_remove_front_exec_result s
        · simp only [Exec.bind_apply, Exec.state, Exec.read, Exec.put_list, Exec.put_heap,
            Exec.pure_apply, bind, Except.bind, pure, Except.pure]
          cases h3 : remove_walk s.heap s.list.first idx.toNat with
          | error e => simp [Exec.result]
          | ok p =>
            cases h4 : deref s.heap p with
            | error e => simp [Exec.result, h4]
            | ok pn =>
              cases h5 : set_prev s.heap pn.next pn.prev with
              | error e => simp [Exec.result, h4, h5]
              | ok h =>
                cases h6 : deref h p with
                | error e => simp [Exec.result, h4, h5, h6]
                | ok qn =>
                  cases h7 : set_next h qn.prev qn.next with
                  | error e => simp [Exec.result, h4, h5, h6, h7]
                  | ok k =>
                    cases h8 : free k p with
                    | error e => simp [Exec.result, h4, h5, h6, h7, h8]
                    | ok m => simp [Exec.result, h4, h5, h6, h7, h8]

/-- What the caller sees of the statement-by-statement peeks and `iter_get`
is `list_peek_front`, `list_peek_back` and `iter_get`. -/
theorem queries_exec_result (s : State) (dir : Int) :
    Exec.result (list_peek_front_exec s) = list_peek_front s ∧
      Exec.result (list_peek_back_exec s) = list_peek_back s ∧
      (iter_get_exec dir s).1 = iter_get s dir := by
  refine ⟨?_, ?_, ?_⟩
  · unfold list_peek_front_exec list_peek_front
    simp only [Exec.bind_apply, Exec.state, Exec.check, Exec.read, Exec.pure_apply, bind,
      Except.bind, pure, Except.pure]
    cases h1 : assert (list_is_empty s == false) with
    | error e => simp [Exec.result]
    | ok u =>
      cases h2 : deref s.heap s.list.first with
      | error e => simp [Exec.result]
      | ok pn => simp [Exec.result]
  · unfold list_peek_back_exec list_peek_back
    simp only [Exec.bind_apply, Exec.state, Exec.check, Exec.read, Exec.pure_apply, bind,
      Except.bind, pure, Except.pure]
    cases h1 : assert (list_is_empty s == false) with
    | error e => simp [Exec.result]
    | ok u =>
      cases h2 : deref s.heap s.list.last with
      | error e => simp [Exec.result]
      | ok pn => simp [Exec.result]
  · unfold iter_get_exec iter_get
    simp only [Exec.bind_apply, Exec.state, Exec.check, bind, Except.bind]
    cases h1 : assert (list_is_empty s == false) with
    | error e => simp
    | ok u =>
      cases h2 : assert (decide (dir = ITER_FRONT_TO_BACK) || decide (dir = ITER_BACK_TO_FRONT)) with
      | error e => simp
      | ok w =>
        simp only []
        split <;> rfl

/-- C14: on every empty list (`first` and `last` null, any heap and any
`length`), each of `list_remove_front`, `list_remove_back`, `list_remove_at`
(any index), `list_peek_front`, `list_peek_back` and `iter_get` (either
direction) stops at a failed `assert`, returns nothing, and the state in
which it stops is the state it was called in: it aborts before any store. -/
theorem C14_empty_list_asserts (s : State) (hf : s.list.first = none)
    (_hl : s.list.last = none) :
    list_remove_front_exec s = (.error .assert_failed, s) ∧
      list_remove_back_exec s = (.error .assert_failed, s) ∧
      (∀ idx : Int, list_remove_at_exec idx s = (.error .assert_failed, s)) ∧
      list_peek_front_exec s = (.error .assert_failed, s) ∧
      list_peek_back_exec s = (.error .assert_failed, s) ∧
      iter_get_exec ITER_FRONT_TO_BACK s = (.error .assert_failed, s) ∧
      iter_get_exec ITER_BACK_TO_FRONT s = (.error .assert_failed, s) := by
  have hemp := list_is_empty_of_null hf
  refine ⟨?_, ?_, ?_, ?_, ?_, ?_, ?_⟩
  · simp [list_remove_front_exec, Exec.bind_apply, Exec.state, Exec.check, hemp, assert]
  · simp [list_remove_back_exec, Exec.bind_apply, Exec.state, Exec.check, hemp, assert]
  · intro idx
    by_cases ha : (decide (idx ≥ 0) && decide (idx < s.list.length)) = true
    · simp [list_remove_at_exec, Exec.bind_apply, Exec.state, Exec.check, ha, hemp, assert]
    · simp [list_remove_at_exec, Exec.bind_apply, Exec.state, Exec.check, ha, assert]
  · simp [list_peek_front_exec, Exec.bind_apply, Exec.state, Exec.check, hemp, assert]
  · simp [list_peek_back_exec, Exec.bind_apply, Exec.state, Exec.check, hemp, assert]
  · simp [iter_get_exec, Exec.bind_apply, Exec.state, Exec.check, hemp, assert]
  · simp [iter_get_exec, Exec.bind_apply, Exec.state, Exec.check, hemp, assert]

/-- Witness for C14 on the list returned by `list_create`. -/
theorem C14_empty_list_asserts_witness :
    list_remove_front_exec list_create = (.error .assert_failed, list_create) ∧
      list_remove_back_exec list_create = (.error .assert_failed, list_create) ∧
      (∀ idx : Int, list_remove_at_exec idx list_create
        = (.error .assert_failed, list_create)) ∧
      list_peek_front_exec list_create = (.error .assert_failed, list_create) ∧
      list_peek_back_exec list_create = (.error .assert_failed, list_create) ∧
      iter_get_exec ITER_FRONT_TO_BACK list_create = (.error .assert_failed, list_create) ∧
      iter_get_exec ITER_BACK_TO_FRONT list_create = (.error .assert_failed, list_create) :=
  C14_empty_list_asserts list_create rfl rfl

/-- On every non-empty list built by the public operations, and for every
index below 0 or above the number of elements, `list_insert_at` stops at its
failed `assert`; an index below 0 or above 1 does so on every list built by
the public operations. -/
theorem list_insert_at_rejects (s : State) (vs : List String) (v : String) (idx : Int)
    (hreach : Reachable s) (hvs : front_to_back s = .ok vs)
    (hidx : idx < 0 ∨ max 1 (vs.length : Int) < idx) :
    list_insert_at s v idx = .error .assert_failed := by
  obtain ⟨cs, hr, rfl, hlen⟩ := hreach.cells hvs
  rw [List.length_map] at hidx
  have hle : wrap32 (max 1 (cs.length : Int)) ≤ max 1 (cs.length : Int) :=
    wrap32_le (by omega)
  refine list_insert_at_out_of_range s v idx ?_
  rw [hlen]
  rcases hidx with h | h
  · exact Or.inl h
  · exact Or.inr (lt_of_le_of_lt hle h)

/-- C15 fails on the code: on the list returned by `list_create`, which has
no element, the out-of-range index 1 passes the `assert` of `list_insert_at`
(the `length` field is 1) and the value is inserted. -/
theorem C15_insert_at_accepts_one_on_empty :
    front_to_back list_create = .ok [] ∧
      ∃ t, list_insert_at list_create "x" 1 = .ok t ∧ front_to_back t = .ok ["x"] :=
  ⟨rfl, _, rfl, rfl⟩

/-! ## Printing -/

theorem print_next_seg {h : Heap} {prv : Option Nat} {cs : List (Nat × String)} {fuel : Nat}
    (out : String) (hs : seg h prv none cs) (hf : cs.length < fuel) :
    print_next h fuel (hdAddr none cs) out = .ok (out ++ arrows (cs.map Prod.snd)) := by
  induction cs generalizing prv fuel out with
  | nil => cases fuel <;> simp [print_next, arrows]
  | cons c cs ih =>
    obtain ⟨h1, h2⟩ := hs
    cases fuel with
    | zero => simp at hf
    | succ f =>
      have hf2 : cs.length < f := by simpa using hf
      simp only [hdAddr_cons, print_next, deref_eq h1, bind, Except.bind, ih _ h2 hf2,
        List.map_cons, arrows, String.append_assoc]

theorem print_prev_seg {h : Heap} {nxt : Option Nat} {cs : List (Nat × String)} {fuel : Nat}
    (out : String) (hs : seg h none nxt cs) (hf : cs.length < fuel) :
    print_prev h fuel (lastAddr none cs) out
      = .ok (out ++ arrows (cs.map Prod.snd).reverse) := by
  induction cs using List.reverseRecOn generalizing nxt fuel out with
  | nil => cases fuel <;> simp [print_prev, arrows]
  | append_singleton cs c ih =>
    rw [seg_append] at hs
    obtain ⟨h1, h2, -⟩ := hs
    cases fuel with
    | zero => simp at hf
    | succ f =>
      have hf2 : cs.length < f := by simpa using hf
      simp only [hdAddr_cons, hdAddr_nil] at h1 h2
      simp only [lastAddr_append, lastAddr_cons, lastAddr_nil, print_prev, deref_eq h2, bind,
        Except.bind, ih _ h1 hf2, List.map_append, List.map_cons, List.map_nil,
        List.reverse_append, List.reverse_cons, List.reverse_nil, List.nil_append,
        List.singleton_append, arrows, String.append_assoc]

/-- C16: on every well-formed list with values `v1 .. vn`, `list_print` with
`ITER_FRONT_TO_BACK` writes `[FRONT]:`, then ` vi ->` for `i = 1 .. n` in
order, then ` [BACK]` and a newline; with `ITER_BACK_TO_FRONT` it writes
`[BACK]:`, then ` vi ->` for `i = n .. 1`, then ` [FRONT]` and a newline.
Each element is written once and the state is left as it was. -/
theorem C16_list_print_format (s : State) (cs : List (Nat × String)) (hr : Rep s cs) :
    list_print s ITER_FRONT_TO_BACK
        = .ok ("[FRONT]:" ++ arrows (cs.map Prod.snd) ++ " [BACK]\n", s) ∧
      list_print s ITER_BACK_TO_FRONT
        = .ok ("[BACK]:" ++ arrows (cs.map Prod.snd).reverse ++ " [FRONT]\n", s) := by
  have hfuel := Nat.lt_succ_of_le hr.length_le
  obtain ⟨hs, -, hf, hl⟩ := hr
  constructor
  · simp only [list_print, if_true, hf, print_next_seg _ hs hfuel, bind, Except.bind, pure,
      Except.pure]
  · have hd : ITER_BACK_TO_FRONT ≠ ITER_FRONT_TO_BACK := by decide
    simp only [list_print, if_neg hd, hl, print_prev_seg _ hs hfuel, bind, Except.bind, pure,
      Except.pure]

/-- Witness for C16 on the list holding "p", "q": the two texts written. -/
theorem C16_list_print_format_witness :
    list_print
        { heap := [some { data := "p", next := some 1, prev := none },
                   some { data := "q", next := none, prev := some 0 }],
          list := { first := some 0, last := some 1, length := 2 } } ITER_FRONT_TO_BACK
        = .ok ("[FRONT]: p -> q -> [BACK]\n",
            { heap := [some { data := "p", next := some 1, prev := none },
                       some { data := "q", next := none, prev := some 0 }],
              list := { first := some 0, last := some 1, length := 2 } }) ∧
      list_print
        { heap := [some { data := "p", next := some 1, prev := none },
                   some { data := "q", next := none, prev := some 0 }],
          list := { first := some 0, last := some 1, length := 2 } } ITER_BACK_TO_FRONT
        = .ok ("[BACK]: q -> p -> [FRONT]\n",
            { heap := [some { data := "p", next := some 1, prev := none },
                       some { data := "q", next := none, prev := some 0 }],
              list := { first := some 0, last := some 1, length := 2 } }) :=
  C16_list_print_format _ [(0, "p"), (1, "q")] ⟨⟨rfl, rfl, trivial⟩, by decide, rfl, rfl⟩

/-! ## Well-formedness and the mutators -/

theorem seg_unique {h : Heap} {prv prw : Option Nat} {cs ds : List (Nat × String)}
    (h1 : seg h prv none cs) (h2 : seg h prw none ds)
    (he : hdAddr none cs = hdAddr none ds) : cs = ds := by
  induction cs generalizing ds prv prw with
  | nil =>
    cases ds with
    | nil => rfl
    | cons d ds => simp at he
  | cons c cs ih =>
    cases ds with
    | nil => simp at he
    | cons d ds =>
      simp only [hdAddr_cons, Option.some.injEq] at he
      obtain ⟨l1, r1⟩ := h1
      obtain ⟨l2, r2⟩ := h2
      rw [he, l2] at l1
      simp only [Option.some.injEq, dllnode.mk.injEq] at l1
      have hcd : c = d := Prod.ext he l1.1.symm
      rw [ih r1 r2 l1.2.1.symm, hcd]

theorem seg_nodup {h : Heap} {prv : Option Nat} {cs : List (Nat × String)}
    (hs : seg h prv none cs) : (cs.map Prod.fst).Nodup := by
  induction cs generalizing prv with
  | nil => exact List.nodup_nil
  | cons c cs ih =>
    obtain ⟨h1, h2⟩ := hs
    rw [List.map_cons, List.nodup_cons]
    refine ⟨?_, ih h2⟩
    intro hm
    obtain ⟨d, hd, hdc⟩ := List.mem_map.1 hm
    obtain ⟨xs, ys, rfl⟩ := List.append_of_mem hd
    have h3 := h2
    rw [seg_append] at h3
    obtain ⟨-, h4, h5⟩ := h3
    rw [hdc, h1] at h4
    simp only [Option.some.injEq, dllnode.mk.injEq] at h4
    have := seg_unique h2 h5 h4.2.1
    have hl := congrArg List.length this
    simp only [List.length_append, List.length_cons] at hl
    omega

theorem wellFormed_iff_rep (s : State) : WellFormed s ↔ ∃ cs, Rep s cs := by
  constructor
  · rintro ⟨cs, hs, hf, hl⟩
    exact ⟨cs, hs, seg_nodup hs, hf, hl⟩
  · rintro ⟨cs, hs, -, hf, hl⟩
    exact ⟨cs, hs, hf, hl⟩

/-- C17: every mutator preserves well-formedness.  If the list satisfies the
three conditions of `WellFormed` (ends null together, outer links null,
neighbours linked both ways along the chain from `first` to `last`), whatever
its `length` field, and a call of `list_append`, `list_prepend`,
`list_insert_at`, `list_remove_at`, `list_remove_front` or `list_remove_back`
returns, then the list it leaves satisfies them again. -/
theorem C17_mutators_preserve_well_formed (s t : State) (c : Call) (hw : WellFormed s)
    (ht : c.apply s = .ok t) : WellFormed t := by
  rw [wellFormed_iff_rep] at hw ⊢
  obtain ⟨cs, hr⟩ := hw
  cases c with
  | append v =>
    obtain ⟨u, hu, hru, -⟩ := list_append_rep hr v
    simp only [Call.apply] at ht
    rw [hu] at ht; cases ht
    exact ⟨_, hru⟩
  | prepend v =>
    obtain ⟨u, hu, hru, -⟩ := list_prepend_rep hr v
    simp only [Call.apply] at ht
    rw [hu] at ht; cases ht
    exact ⟨_, hru⟩
  | insert_at v idx =>
    obtain ⟨ds, hds, -⟩ := hr.keeps_insert_at ht
    exact ⟨ds, hds⟩
  | remove_at idx =>
    simp only [Call.apply] at ht
    cases hx : list_remove_at s idx with
    | error e => rw [hx] at ht; cases ht
    | ok p =>
      obtain ⟨r, u⟩ := p
      rw [hx] at ht; cases ht
      obtain ⟨ds, hds, -⟩ := hr.keeps_remove_at hx
      exact ⟨ds, hds⟩
  | remove_front =>
    simp only [Call.apply] at ht
    cases hx : list_remove_front s with
    | error e => rw [hx] at ht; cases ht
    | ok p =>
      obtain ⟨r, u⟩ := p
      rw [hx] at ht; cases ht
      obtain ⟨ds, hds, -⟩ := hr.keeps_remove_front hx
      exact ⟨ds, hds⟩
  | remove_back =>
    simp only [Call.apply] at ht
    cases hx : list_remove_back s with
    | error e => rw [hx] at ht; cases ht
    | ok p =>
      obtain ⟨r, u⟩ := p
      rw [hx] at ht; cases ht
      obtain ⟨ds, hds, -⟩ := hr.keeps_remove_back hx
      exact ⟨ds, hds⟩

/-- Witness for C17: an interior `list_remove_at` on the list "a", "b", "c". -/
theorem C17_mutators_preserve_well_formed_witness :
    WellFormed
      { heap := [some { data := "a", next := some 2, prev := none },
                 none,
                 some { data := "c", next := none, prev := some 0 }],
        list := { first := some 0, last := some 2, length := 2 } } :=
  C17_mutators_preserve_well_formed
    { heap := [some { data := "a", next := some 1, prev := none },
               some { data := "b", next := some 2, prev := some 0 },
               some { data := "c", next := none, prev := some 1 }],
      list := { first := some 0, last := some 2, length := 3 } }
    _ (Call.remove_at 1) ⟨[(0, "a"), (1, "b"), (2, "c")], ⟨rfl, rfl, rfl, trivial⟩, rfl, rfl⟩ rfl

/-! ## Removal at the ends, round trip, and the length field -/

/-- C18: on every well-formed list with `n >= 2` cells and `length` field
`n`, `list_remove_front` returns the first value and leaves the remaining
values, the new first node has a null `prev`, `last` is unchanged;
`list_remove_back` returns the last value and leaves the values before it,
the new last node has a null `next`, `first` is unchanged; in both cases
`length` becomes `n - 1`. -/
theorem C18_remove_at_ends (s : State) (cs : List (Nat × String)) (hr : Rep s cs)
    (hn : 2 ≤ cs.length) (hlen : s.list.length = (cs.length : Int)) :
    (∃ t a b, cs[0]? = some a ∧ cs[1]? = some b ∧
      list_remove_front s = .ok (a.2, t) ∧
      front_to_back t = .ok (cs.map Prod.snd).tail ∧
      t.list.first = some b.1 ∧ (∃ n, load t.heap b.1 = some n ∧ n.prev = none) ∧
      t.list.last = s.list.last ∧ t.list.length = (cs.length : Int) - 1) ∧
    (∃ t a b, cs[cs.length - 2]? = some a ∧ cs[cs.length - 1]? = some b ∧
      list_remove_back s = .ok (b.2, t) ∧
      front_to_back t = .ok (cs.map Prod.snd).dropLast ∧
      t.list.last = some a.1 ∧ (∃ n, load t.heap a.1 = some n ∧ n.next = none) ∧
      t.list.first = s.list.first ∧ t.list.length = (cs.length : Int) - 1) := by
  constructor
  · match cs, hr, hn, hlen with
    | a :: b :: rest, hr, _, hlen =>
      obtain ⟨t, ht, hrt, hlt⟩ := list_remove_front_cons hr
      refine ⟨t, a, b, rfl, by simp, ht, by simpa using hrt.front_to_back, hrt.2.2.1,
        ⟨_, hrt.1.1, rfl⟩, ?_, by
        rw [hlt, hlen]
        exact int_pred_of_pos (by
          simp only [List.length_cons, List.length_append, List.length_nil]; omega)⟩
      rw [hrt.2.2.2, hr.2.2.2]
      rfl
  · obtain ⟨pre, a, b, rfl⟩ := split_last2 cs hn
    obtain ⟨t, ht, hrt, hlt⟩ := list_remove_back_concat hr
    have hseg := hrt.1
    rw [seg_append] at hseg
    have hla : t.list.last = some a.1 := by
      rw [hrt.2.2.2, lastAddr_append]; rfl
    refine ⟨t, a, b, ?_, ?_, ht, ?_, hla, ⟨_, hseg.2.1, rfl⟩, ?_, by
        rw [hlt, hlen]
        exact int_pred_of_pos (by
          simp only [List.length_cons, List.length_append, List.length_nil]; omega)⟩
    · have : (pre ++ [a, b]).length - 2 = pre.length := by simp
      rw [this, List.getElem?_append_right (Nat.le_refl _), Nat.sub_self]
      rfl
    · have : (pre ++ [a, b]).length - 1 = pre.length + 1 := by simp
      rw [this, List.getElem?_append_right (by omega), Nat.add_sub_cancel_left]
      rfl
    · rw [hrt.front_to_back]
      have : pre ++ [a, b] = (pre ++ [a]) ++ [b] := by simp
      rw [this, List.map_append _ (pre ++ [a]) [b], List.map_cons, List.map_nil,
        List.dropLast_concat]
    · rw [hrt.2.2.1, hr.2.2.1, hdAddr_append, hdAddr_append]
      rfl

/-- Witness for C18 on the list holding "a", "b" with `length` 2. -/
theorem C18_remove_at_ends_witness :
    (∃ t, list_remove_front
        { heap := [some { data := "a", next := some 1, prev := none },
                   some { data := "b", next := none, prev := some 0 }],
          list := { first := some 0, last := some 1, length := 2 } } = .ok ("a", t) ∧
      front_to_back t = .ok ["b"] ∧ t.list.length = 1) ∧
    (∃ t, list_remove_back
        { heap := [some { data := "a", next := some 1, prev := none },
                   some { data := "b", next := none, prev := some 0 }],
          list := { first := some 0, last := some 1, length := 2 } } = .ok ("b", t) ∧
      front_to_back t = .ok ["a"] ∧ t.list.length = 1) := by
  obtain ⟨⟨t, a, b, ha, -, ht, hf, -, -, -, hl⟩, ⟨u, c, d, -, hd, hu, hg, -, -, -, hm⟩⟩ :=
    C18_remove_at_ends
      { heap := [some { data := "a", next := some 1, prev := none },
                 some { data := "b", next := none, prev := some 0 }],
        list := { first := some 0, last := some 1, length := 2 } }
      [(0, "a"), (1, "b")] ⟨⟨rfl, rfl, trivial⟩, by decide, rfl, rfl⟩ (by decide) rfl
  have ha2 : a = (0, "a") := (Option.some.inj ha).symm
  have hd2 : d = (1, "b") := (Option.some.inj hd).symm
  subst ha2 hd2
  exact ⟨⟨t, ht, hf, hl⟩, ⟨u, hu, hg, hm⟩⟩

theorem list_peek_front_state {s t : State} {v : String}
    (h : list_peek_front s = .ok (v, t)) : t = s := by
  simp only [list_peek_front, bind, Except.bind, pure, Except.pure] at h
  cases ha : assert (list_is_empty s == false) with
  | error e => rw [ha] at h; cases h
  | ok u =>
    cases hd : deref s.heap s.list.first with
    | error e => rw [ha, hd] at h; cases h
    | ok n => rw [ha, hd] at h; cases h; rfl

theorem list_peek_back_state {s t : State} {v : String}
    (h : list_peek_back s = .ok (v, t)) : t = s := by
  simp only [list_peek_back, bind, Except.bind, pure, Except.pure] at h
  cases ha : assert (list_is_empty s == false) with
  | error e => rw [ha] at h; cases h
  | ok u =>
    cases hd : deref s.heap s.list.last with
    | error e => rw [ha, hd] at h; cases h
    | ok n => rw [ha, hd] at h; cases h; rfl

theorem list_print_state {s t : State} {d : Int} {out : String}
    (h : list_print s d = .ok (out, t)) : t = s := by
  simp only [list_print, bind, Except.bind, pure, Except.pure] at h
  split at h
  · cases hp : print_next s.heap (s.heap.length + 1) s.list.first "[FRONT]:" with
    | error e => rw [hp] at h; cases h
    | ok o => rw [hp] at h; cases h; rfl
  · cases hp : print_prev s.heap (s.heap.length + 1) s.list.last "[BACK]:" with
    | error e => rw [hp] at h; cases h
    | ok o => rw [hp] at h; cases h; rfl

/-- C20, as the code has it: in every state reached from `list_create` by
calls of the public operations that return (the six mutators; the queries,
peeks and `list_print` leave the state as it is), the `length` field equals
the larger of 1 and the number of nodes met by following `next` from `first`,
reduced to the range of a 32-bit `int`; while the list has fewer than 2^31
nodes it is that number itself, so it is not 0 and not below the node
count. -/
theorem C20_length_is_max_one_count (s : State) (hreach : Reachable s) :
    ∃ vs, front_to_back s = .ok vs ∧ s.list.length = wrap32 (max 1 (vs.length : Int)) ∧
      (vs.length < 2147483648 →
        s.list.length = max 1 (vs.length : Int) ∧ s.list.length ≠ 0 ∧
        (vs.length : Int) ≤ s.list.length) := by
  obtain ⟨cs, hr, hlen⟩ := hreach.inv
  refine ⟨cs.map Prod.snd, hr.front_to_back, by simpa using hlen, ?_⟩
  intro hfit
  rw [List.length_map] at hfit ⊢
  have h1 : s.list.length = max 1 (cs.length : Int) := by
    rw [hlen]
    exact wrap32_of_range (by unfold INT_MIN; omega) (by unfold INT_MAX; omega)
  refine ⟨h1, ?_, ?_⟩ <;> rw [h1] <;> omega

/-- Witness for C20 on the freshly created list and after one append. -/
theorem C20_length_is_max_one_count_witness :
    (∃ vs, front_to_back list_create = .ok vs ∧
      list_create.list.length = wrap32 (max 1 (vs.length : Int)) ∧
      (vs.length < 2147483648 →
        list_create.list.length = max 1 (vs.length : Int) ∧
        list_create.list.length ≠ 0 ∧ (vs.length : Int) ≤ list_create.list.length)) ∧
    (∃ vs, front_to_back
        { heap := [some { data := "a", next := none, prev := none }],
          list := { first := some 0, last := some 0, length := 1 } } = .ok vs ∧
      (1 : Int) = wrap32 (max 1 (vs.length : Int)) ∧
      (vs.length < 2147483648 →
        (1 : Int) = max 1 (vs.length : Int) ∧ (1 : Int) ≠ 0 ∧ (vs.length : Int) ≤ 1)) :=
  ⟨C20_length_is_max_one_count list_create Reachable.create,
   C20_length_is_max_one_count _ (Reachable.append _ "a" _ Reachable.create rfl)⟩

/-- C20 as stated, for every reachable state, fails on the code: the state
reached by 2^31 calls of `list_append` has 2^31 nodes and its `length` field
holds `INT_MIN`, which is neither `max(1, node count)` nor at least the node
count. -/
theorem C20_length_below_count_at_two_pow_31_nodes :
    ∃ t vs, Reachable t ∧ front_to_back t = .ok vs ∧ (vs.length : Int) = 2147483648 ∧
      t.list.length = -2147483648 ∧ t.list.length ≠ max 1 (vs.length : Int) ∧
      ¬ ((vs.length : Int) ≤ t.list.length) := by
  obtain ⟨t, vs, -, hreach, hvs, hl, hlen⟩ := appends_length 2147483648 "a" (by decide)
  have h1 : t.list.length = -2147483648 := by
    rw [hlen]; unfold wrap32; norm_num
  have h2 : (vs.length : Int) = 2147483648 := by rw [hl]; norm_num
  refine ⟨t, vs, hreach, hvs, h2, h1, ?_, ?_⟩
  · rw [h1, h2]; norm_num
  · rw [h1, h2]; norm_num

end DLL
